import Mathlib

/-!
# Verification of Sigil's FolderKeeper (src/src/BookManipulation/FolderKeeper.cpp)

A shallow embedding of the resource registry of `FolderKeeper`: the two
indices `m_Resources` (identifier -> resource) and `m_Path2Resource`
(book path -> resource), the unique-filename allocator
`GetUniqueFilenameVersion`, classification-driven placement in
`AddContentFileToFolder`, removal, renaming, and the file-watcher
suspend/resume pair.

Strings (`QString`) are modelled as `List Char`.  Qt case-insensitive
comparison is modelled as ASCII case folding.  `QHash` maps are modelled
as association lists with unique keys.  Resource objects (class `Resource`
lives outside `src/`) are modelled from the spec: each has an immutable
unique identifier, a mutable full filesystem path, and derived book path
and filename.  Pointers to resource objects are modelled by their
identifiers; the object store (`heap`) is append-only, so stale pointers
still dereference, as C++ pointers to not-yet-deleted objects do.
Signal emissions (ResourceAdded/ResourceRemoved) have no registry effect
and are not modelled.  `QString::toInt` overflow of 32-bit int is
idealized to unbounded arithmetic.
-/

set_option maxHeartbeats 1000000

namespace Sigil

abbrev Path : Type := List Char

/-- ASCII case folding of one character, modelling the case-insensitive
comparisons Qt performs (`Qt::CaseInsensitive`, `CaseInsensitiveOption`). -/
def lowerc (c : Char) : Char :=
  if 65 ≤ c.toNat ∧ c.toNat ≤ 90 then Char.ofNat (c.toNat + 32) else c

def lower (s : Path) : Path := s.map lowerc

/-- `QString::compare` with `Qt::CaseInsensitive` (as an equality test). -/
def ciEq (a b : Path) : Bool := decide (lower a = lower b)

/-- `QStringList::contains(x, Qt::CaseInsensitive)`. -/
def ciMem (f : Path) (names : List Path) : Bool := names.any (fun g => ciEq g f)

def isPrefixL : Path → Path → Bool
  | [], _ => true
  | _ :: _, [] => false
  | a :: as, b :: bs => a == b && isPrefixL as bs

/-- `QString::contains(QRegularExpression("META-INF"))`: plain substring
containment (the pattern has no metacharacters). -/
def containsSub (needle : Path) : Path → Bool
  | [] => isPrefixL needle []
  | c :: t => isPrefixL needle (c :: t) || containsSub needle t

/-- Modelled from the spec: `QFileInfo::fileName`, the part of the path
after the last '/'. -/
def fileNameOf (p : Path) : Path := (p.reverse.takeWhile (fun c => c ≠ '/')).reverse

/-- Modelled from the spec: `QFileInfo::absolutePath`, the directory part
before the last '/' (paths in this model are absolute). -/
def absolutePathOf (p : Path) : Path := p.take (p.length - (fileNameOf p).length - 1)

/-- `QFileInfo::baseName`: the file name up to (not including) the first '.'. -/
def baseNameOf (p : Path) : Path := (fileNameOf p).takeWhile (fun c => c ≠ '.')

/-- `QFileInfo::suffix`: the part after the last '.' of the file name
(empty when the file name has no dot). -/
def suffixOf (p : Path) : Path :=
  let f := fileNameOf p
  if f.contains '.' then (f.reverse.takeWhile (fun c => c ≠ '.')).reverse else []

/-- `QFileInfo::completeSuffix`: the part after the first '.' of the file
name (empty when the file name has no dot). -/
def completeSuffixOf (p : Path) : Path :=
  let f := fileNameOf p
  if f.contains '.' then f.drop ((baseNameOf p).length + 1) else []

/-- `QString::remove(QRegularExpression("\d+$"))`: strip the trailing run
of decimal digits. -/
def removeTrailingDigits (s : Path) : Path := (s.reverse.dropWhile Char.isDigit).reverse

/-- Numeric value of a decimal digit character. -/
def dval (c : Char) : Nat := c.toNat - 48

/-- Value of a string of decimal digits (what `QString::toInt` computes on
a digit-only string). -/
def digitsToNat (s : Path) : Nat := s.foldl (fun a c => 10 * a + dval c) 0

def digitChar (n : Nat) : Char :=
  match n with
  | 0 => '0' | 1 => '1' | 2 => '2' | 3 => '3' | 4 => '4'
  | 5 => '5' | 6 => '6' | 7 => '7' | 8 => '8' | _ => '9'

/-- Decimal digits of `n`, with enough fuel to terminate (structural
recursion so that proofs by evaluation reduce). -/
def decimalReprAux : Nat → Nat → Path
  | 0, _ => []
  | fuel + 1, n =>
    if n < 10 then [digitChar n]
    else decimalReprAux fuel (n / 10) ++ [digitChar (n % 10)]

/-- Decimal representation of a natural number (`QString::number`). -/
def decimalRepr (n : Nat) : Path := decimalReprAux (n + 1) n

/-- `QString("%1").arg(n, w, 10, QChar('0'))`: decimal `n` left-padded
with '0' to field width `w` (never truncated). -/
def padNum (n w : Nat) : Path :=
  List.replicate (w - (decimalRepr n).length) '0' ++ decimalRepr n

/-- The search regex of `GetUniqueFilenameVersion`:
`^<escaped pfx>(\d*)(\.<escaped ext>)?$` with `CaseInsensitiveOption`,
where the `\.ext` part is present exactly when `ext` is nonempty.
Returns the text captured by `(\d*)` on a match.  The capture is
deterministic: the group can only end where the next character is not a
digit, so it is the maximal digit run after the prefix. -/
def patMatch (pfx ext s : Path) : Option Path :=
  if ciEq (s.take pfx.length) pfx then
    let rest := s.drop pfx.length
    let cap := rest.takeWhile Char.isDigit
    let rem := rest.drop cap.length
    if ext = [] then
      if rem = [] then some cap else none
    else
      match rem with
      | [] => none
      | c :: e => if c = '.' ∧ ciEq e ext = true then some cap else none
  else none

/-- `QString::toInt` on the captured digit string with the conversion
idealized as unbounded: fails on the empty capture only.  `toIntQ` below
is the exact embedding, which also fails when the value is out of 32-bit
`int` range; the two differ only on captures above `2^31 - 1`. -/
def toIntOpt (s : Path) : Option Nat := if s = [] then none else some (digitsToNat s)

/-- `QString::toInt` on the captured digit string, exactly (line 281):
the conversion fails on the empty capture and on a value out of 32-bit
`int` range (the capture is all digits, so only the upper bound
`2147483647` can be exceeded). -/
def toIntQ (s : Path) : Option Nat :=
  if s = [] ∨ 2147483647 < digitsToNat s then none else some (digitsToNat s)

/-- One existing file name's contribution to the suffix scan: the numeric
suffix value and the length of the captured text, when the name matches
the pattern and the capture converts. -/
def matchCap (pfx ext existing : Path) : Option (Nat × Nat) :=
  match patMatch pfx ext existing with
  | none => none
  | some cap =>
    match toIntOpt cap with
    | none => none
    | some v => some (v, cap.length)

/-- The body of the `foreach` loop over existing file names: keep the
running maximum suffix value and the captured length of the (first)
maximum, starting from `(-1, -1)`. -/
def scanStep (pfx ext : Path) (acc : Int × Int) (existing : Path) : Int × Int :=
  match matchCap pfx ext existing with
  | none => acc
  | some q => if (q.1 : Int) > acc.1 then ((q.1 : Int), (q.2 : Int)) else acc

/-- `FolderKeeper::GetUniqueFilenameVersion` with the integer conversion
idealized as unbounded (`toIntOpt`).  `filenames` is the value of
`GetAllFilenames()`. -/
def getUniqueFilenameVersion (filenames : List Path) (filename : Path) : Path :=
  if ciMem filename filenames = false then filename
  else
    let pfx := removeTrailingDigits (baseNameOf filename)
    let ext := completeSuffixOf filename
    let st := filenames.foldl (scanStep pfx ext) (-1, -1)
    let maxNum : Int := if st.1 = -1 then 0 else st.1
    let maxLen : Int := if st.1 = -1 then 4 else st.2
    pfx ++ padNum (maxNum + 1).toNat maxLen.toNat ++ (if ext = [] then [] else '.' :: ext)

/-- `matchCap` with the exact integer conversion `toIntQ`: an existing
name whose captured value is out of `int` range fails conversion and
contributes nothing to the scan. -/
def matchCapQ (pfx ext existing : Path) : Option (Nat × Nat) :=
  match patMatch pfx ext existing with
  | none => none
  | some cap =>
    match toIntQ cap with
    | none => none
    | some v => some (v, cap.length)

/-- The `foreach` loop body with the exact integer conversion. -/
def scanStepQ (pfx ext : Path) (acc : Int × Int) (existing : Path) : Int × Int :=
  match matchCapQ pfx ext existing with
  | none => acc
  | some q => if (q.1 : Int) > acc.1 then ((q.1 : Int), (q.2 : Int)) else acc

/-- `FolderKeeper::GetUniqueFilenameVersion`, exact embedding of lines
252-300: identical to `getUniqueFilenameVersion` except that the suffix
scan skips names whose captured value fails `QString::toInt`'s 32-bit
`int` range check (line 281). -/
def getUniqueFilenameVersionQ (filenames : List Path) (filename : Path) : Path :=
  if ciMem filename filenames = false then filename
  else
    let pfx := removeTrailingDigits (baseNameOf filename)
    let ext := completeSuffixOf filename
    let st := filenames.foldl (scanStepQ pfx ext) (-1, -1)
    let maxNum : Int := if st.1 = -1 then 0 else st.1
    let maxLen : Int := if st.1 = -1 then 4 else st.2
    pfx ++ padNum (maxNum + 1).toNat maxLen.toNat ++ (if ext = [] then [] else '.' :: ext)

inductive SigilErr where
  | fileDoesNotExist (p : Path)
  | resourceDoesNotExist (p : Path)
  deriving DecidableEq

/-- `Resource::Type()` tags, one per resource class constructed in
`AddContentFileToFolder` plus the OPF and NCX infrastructure resources. -/
inductive RType where
  | generic
  | misctext
  | audio
  | video
  | image
  | svg
  | font
  | html
  | css
  | xml
  | opf
  | ncx
  deriving DecidableEq

/-- Modelled from the spec: the mutable data of a `Resource` object
(class `Resource` is outside `src/`): a stable unique identifier, the
full filesystem path (mutable only via rename), the media type and LCP
set at registration, and the resource kind tag. -/
structure ResData where
  rid : Nat
  fullPath : Path
  mediaType : Path
  lcp : Path
  rtype : RType
  deriving DecidableEq

/-- Association-list lookup (`QHash::value`). -/
def lookupA {α : Type} (k : Path) : List (Path × α) → Option α
  | [] => none
  | (k2, v) :: t => if k2 = k then some v else lookupA k t

/-- Association-list insert-or-assign (`QHash::operator[] =`). -/
def insertA {α : Type} (k : Path) (v : α) : List (Path × α) → List (Path × α)
  | [] => [(k, v)]
  | (k2, v2) :: t => if k2 = k then (k, v) :: t else (k2, v2) :: insertA k v t

/-- Association-list key removal (`QHash::remove`). -/
def eraseA {α : Type} (k : Path) : List (Path × α) → List (Path × α)
  | [] => []
  | (k2, v2) :: t => if k2 = k then t else (k2, v2) :: eraseA k t

def keysA {α : Type} (l : List (Path × α)) : List Path := l.map Prod.fst

/-- Modelled from the spec: the media classification table (`MediaTypes`,
an external collaborator per spec section 2/6, not under `src/`),
as finite lookup tables consulted with caller-supplied defaults. -/
structure MediaTypes where
  extToMediaType : List (Path × Path)
  mediaTypeToGroup : List (Path × Path)
  mediaTypeToDesc : List (Path × Path)

def MediaTypes.getMediaTypeFromExtension (m : MediaTypes) (ext dflt : Path) : Path :=
  (lookupA ext m.extToMediaType).getD dflt

def MediaTypes.getGroupFromMediaType (m : MediaTypes) (mt dflt : Path) : Path :=
  (lookupA mt m.mediaTypeToGroup).getD dflt

def MediaTypes.getResourceDescFromMediaType (m : MediaTypes) (mt dflt : Path) : Path :=
  (lookupA mt m.mediaTypeToDesc).getD dflt

/-- `FolderKeeper::CreateKeyToLCPMap`: folder-role key to absolute prefix
(`m_KeyToLCP`); `main` never ends with '/'. -/
def keyToLCP (main : Path) : List (Path × Path) :=
  [("text".data, main ++ "/OEBPS/Text/".data),
   ("styles".data, main ++ "/OEBPS/Styles/".data),
   ("images".data, main ++ "/OEBPS/Images/".data),
   ("fonts".data, main ++ "/OEBPS/Fonts/".data),
   ("audio".data, main ++ "/OEBPS/Audio/".data),
   ("video".data, main ++ "/OEBPS/Video/".data),
   ("misc".data, main ++ "/OEBPS/Misc/".data),
   ("ncx".data, main ++ "/OEBPS/".data),
   ("opf".data, main ++ "/OEBPS/".data),
   ("other".data, main ++ "/".data)]

/-- Registry state of a `FolderKeeper`.  `heap` is the append-only store
of every `Resource` object ever created (objects outlive registry
removal); a `Resource*` pointer is modelled by the object's identifier.
`mResources` is `m_Resources` (whose key is always the value's own
identifier, so it is carried as the set of registered identifiers);
`mPath2Resource` is `m_Path2Resource` with nullable pointer values. -/
structure FolderKeeper where
  mFullPathToMainFolder : Path
  heap : List ResData
  mResources : List Nat
  mPath2Resource : List (Path × Option Nat)
  mFSWatcherFiles : List Path
  mSuspendedWatchedFiles : List Path
  mNCX : Option Nat
  ctr : Nat
  deriving DecidableEq

/-- Book path of a full path: `full.right(full.length - main.length - 1)`
(lines 214 and 470; `QString::right` returns the whole string when the
requested length is negative).  Also models `Resource::GetRelativePath`
(modelled from the spec: "the full path minus the package root"). -/
def relPathOf (main full : Path) : Path :=
  if full.length ≤ main.length then full else full.drop (main.length + 1)

/-- `QString::right(n)`: the `n` rightmost characters; the whole string
when `n` is negative or at least the length. -/
def rightQ (s : Path) (n : Int) : Path :=
  if n < 0 then s else s.drop (s.length - n.toNat)

/-- Dereference a resource pointer. -/
def FolderKeeper.resOf (fk : FolderKeeper) (i : Nat) : Option ResData :=
  fk.heap.find? (fun rd => rd.rid == i)

/-- `m_Resources.values()`. -/
def FolderKeeper.resources (fk : FolderKeeper) : List ResData :=
  fk.mResources.filterMap fk.resOf

/-- `FolderKeeper::GetAllFilenames`. -/
def FolderKeeper.getAllFilenames (fk : FolderKeeper) : List Path :=
  fk.resources.map (fun rd => fileNameOf rd.fullPath)

/-- `FolderKeeper::GetHighestReadingOrder`. -/
def FolderKeeper.getHighestReadingOrder (fk : FolderKeeper) : Int :=
  (fk.resources.foldl (fun n rd => if rd.rtype = RType.html then n + 1 else n) (0 : Int)) - 1

/-- `FolderKeeper::GetResourceByIdentifier` (nullable; `operator[]` on a
const `QHash` returns the stored pointer or null). -/
def FolderKeeper.getResourceByIdentifier (fk : FolderKeeper) (i : Nat) : Option Nat :=
  if i ∈ fk.mResources then some i else none

/-- `FolderKeeper::GetResourceByBookPath`: `m_Path2Resource.value(bookpath,
NULL)`, throwing `ResourceDoesNotExist` on null. -/
def FolderKeeper.getResourceByBookPath (fk : FolderKeeper) (bookpath : Path) :
    Except SigilErr Nat :=
  match (lookupA bookpath fk.mPath2Resource).getD none with
  | some i => .ok i
  | none => .error (.resourceDoesNotExist bookpath)

/-- `FolderKeeper::DetermineFileGroup`. -/
def determineFileGroup (mtbl : MediaTypes) (filepath mimetype : Path) : Path :=
  let extension := lower (suffixOf filepath)
  if containsSub ("META-INF".data) filepath then "other".data
  else if mimetype = [] then
    let mtv := mtbl.getMediaTypeFromExtension extension []
    if mtv = [] then "other".data
    else lower (mtbl.getGroupFromMediaType mtv ("other".data))
  else lower (mtbl.getGroupFromMediaType mimetype ("other".data))

/-- `m_Resources[id] = resource` for a map whose key is the value's own
identifier: register the identifier if not already present. -/
def insertId (l : List Nat) (i : Nat) : List Nat := if i ∈ l then l else l ++ [i]

/-- Destination of one classification branch of `AddContentFileToFolder`:
the package-relative destination folder, the constructed resource kind,
and whether this is the final fallback branch (which also resets the LCP
to the misc prefix). -/
structure Placement where
  folder : Path
  rty : RType
  fallbackBranch : Bool
  deriving DecidableEq

/-- The `resdesc` branch chain of `AddContentFileToFolder`
(lines 168-209, in source order). -/
def descPlacement (resdesc : Path) : Placement :=
  if resdesc = "MiscTextResource".data then ⟨"OEBPS/Misc".data, .misctext, false⟩
  else if resdesc = "AudioResource".data then ⟨"OEBPS/Audio".data, .audio, false⟩
  else if resdesc = "VideoResource".data then ⟨"OEBPS/Video".data, .video, false⟩
  else if resdesc = "ImageResource".data then ⟨"OEBPS/Images".data, .image, false⟩
  else if resdesc = "SVGResource".data then ⟨"OEBPS/Images".data, .svg, false⟩
  else if resdesc = "FontResource".data then ⟨"OEBPS/Fonts".data, .font, false⟩
  else if resdesc = "HTMLResource".data then ⟨"OEBPS/Text".data, .html, false⟩
  else if resdesc = "CSSResource".data then ⟨"OEBPS/Styles".data, .css, false⟩
  else if resdesc = "XMLResource".data then ⟨"OEBPS/Misc".data, .xml, false⟩
  else ⟨"OEBPS/Misc".data, .generic, true⟩

/-- Leading-dot normalization of `AddContentFileToFolder` (lines 136-143). -/
def normalisedOf (p : Path) : Path :=
  if (fileNameOf p).take 1 = ['.'] then absolutePathOf p ++ '/' :: (fileNameOf p).drop 1
  else p

/-- The resource object constructed inside the critical section of
`AddContentFileToFolder` (lines 148-219): unique-name allocation, media
type and group resolution, the placement branch chain, and the resulting
destination path, kind, media type and LCP.  The new identifier is the
state's fresh counter. -/
def addedRes (fk : FolderKeeper) (mtbl : MediaTypes) (fullfilepath mimetype : Path) :
    ResData :=
  let main := fk.mFullPathToMainFolder
  let normalised := normalisedOf fullfilepath
  let filename := getUniqueFilenameVersion fk.getAllFilenames (fileNameOf normalised)
  let extension := lower (suffixOf normalised)
  let mtv := if mimetype = [] then mtbl.getMediaTypeFromExtension extension [] else mimetype
  let group := determineFileGroup mtbl normalised mtv
  let resdesc := mtbl.getResourceDescFromMediaType mtv ("Resource".data)
  let lcp0 := (lookupA group (keyToLCP main)).getD []
  let pr : Path × RType × Path :=
    if containsSub ("META-INF".data) fullfilepath then
      (main ++ rightQ fullfilepath ((fullfilepath.length : Int) - (main.length : Int)),
       RType.generic, lcp0)
    else
      let pl := descPlacement resdesc
      ((main ++ '/' :: pl.folder) ++ '/' :: filename, pl.rty,
       if pl.fallbackBranch then (lookupA ("misc".data) (keyToLCP main)).getD [] else lcp0)
  { rid := fk.ctr, fullPath := pr.1, mediaType := mtv, lcp := pr.2.2, rtype := pr.2.1 }

/-- `FolderKeeper::AddContentFileToFolder`.  `disk` is the set of files
that exist on disk (`QFileInfo::exists`).  Returns the new state and the
new resource's identifier, or throws `FileDoesNotExist`.  The physical
`QFile::copy` and the signal wiring after the critical section have no
effect on the registry state and are not modelled. -/
def FolderKeeper.addContentFileToFolder (fk : FolderKeeper) (mtbl : MediaTypes)
    (disk : List Path) (fullfilepath : Path) (_updateOpf : Bool) (mimetype : Path) :
    Except SigilErr (FolderKeeper × Nat) :=
  if fullfilepath ∈ disk then
    let rd := addedRes fk mtbl fullfilepath mimetype
    let bookPath := relPathOf fk.mFullPathToMainFolder rd.fullPath
    .ok ({ fk with
            heap := fk.heap ++ [rd],
            mResources := insertId fk.mResources rd.rid,
            mPath2Resource := insertA bookPath (some rd.rid) fk.mPath2Resource,
            ctr := fk.ctr + 1 }, rd.rid)
  else .error (.fileDoesNotExist fullfilepath)

/-- `FolderKeeper::AddNCXToFolder` (registration effects only: version and
main-identifier seeding concern the NCX content, not the registry). -/
def FolderKeeper.addNCXToFolder (fk : FolderKeeper) : FolderKeeper :=
  let rid := fk.ctr
  let rd : ResData :=
    { rid := rid,
      fullPath := fk.mFullPathToMainFolder ++ "/OEBPS/toc.ncx".data,
      mediaType := "application/x-dtbncx+xml".data,
      lcp := (lookupA ("ncx".data) (keyToLCP fk.mFullPathToMainFolder)).getD [],
      rtype := RType.ncx }
  { fk with
    heap := fk.heap ++ [rd],
    mResources := insertId fk.mResources rid,
    mPath2Resource :=
      insertA (relPathOf fk.mFullPathToMainFolder rd.fullPath) (some rid) fk.mPath2Resource,
    mNCX := some rid,
    ctr := fk.ctr + 1 }

/-- `FolderKeeper::RemoveResource` (lines 453-464); `rd` is the current
data of the passed `Resource*`. -/
def FolderKeeper.removeResource (fk : FolderKeeper) (rd : ResData) : FolderKeeper :=
  { fk with
    mResources := fk.mResources.erase rd.rid,
    mPath2Resource := eraseA (relPathOf fk.mFullPathToMainFolder rd.fullPath) fk.mPath2Resource,
    mFSWatcherFiles := fk.mFSWatcherFiles.erase rd.fullPath,
    mSuspendedWatchedFiles := fk.mSuspendedWatchedFiles.filter (fun q => q ≠ rd.fullPath) }

/-- `FolderKeeper::ResourceRenamed` (lines 466-475); `rd` is the current
(already renamed) data of the passed `Resource*`, `oldFullPath` its prior
full path.  `m_Path2Resource[book_path]` default-constructs a null entry
when the key is absent, but that entry is removed on the next line, so
the net effect is capture-then-erase; the captured (possibly null)
pointer is stored under the new relative path. -/
def FolderKeeper.resourceRenamed (fk : FolderKeeper) (rd : ResData) (oldFullPath : Path) :
    FolderKeeper :=
  let bookPath := relPathOf fk.mFullPathToMainFolder oldFullPath
  let res : Option Nat := (lookupA bookPath fk.mPath2Resource).getD none
  { fk with
    mPath2Resource :=
      insertA (relPathOf fk.mFullPathToMainFolder rd.fullPath) res
        (eraseA bookPath fk.mPath2Resource) }

/-- `QFileSystemWatcher::addPath` (ignores paths already watched). -/
def addPath (w : List Path) (p : Path) : List Path := if p ∈ w then w else w ++ [p]

/-- `FolderKeeper::SuspendWatchingResources` (lines 519-525). -/
def FolderKeeper.suspendWatchingResources (fk : FolderKeeper) : FolderKeeper :=
  if fk.mSuspendedWatchedFiles.isEmpty && !fk.mFSWatcherFiles.isEmpty then
    let susp := fk.mSuspendedWatchedFiles ++ fk.mFSWatcherFiles
    { fk with
      mSuspendedWatchedFiles := susp,
      mFSWatcherFiles := fk.mFSWatcherFiles.filter (fun p => ¬ p ∈ susp) }
  else fk

/-- `FolderKeeper::ResumeWatchingResources` (lines 527-537); `disk` is
the set of files that exist (`QFile::exists`). -/
def FolderKeeper.resumeWatchingResources (fk : FolderKeeper) (disk : List Path) : FolderKeeper :=
  if !fk.mSuspendedWatchedFiles.isEmpty then
    { fk with
      mFSWatcherFiles :=
        fk.mSuspendedWatchedFiles.foldl
          (fun w p => if p ∈ disk then addPath w p else w) fk.mFSWatcherFiles,
      mSuspendedWatchedFiles := [] }
  else fk

/-- The OPF infrastructure resource created by `CreateInfrastructureFiles`. -/
def opfResData (main : Path) : ResData :=
  { rid := 0,
    fullPath := main ++ "/OEBPS/content.opf".data,
    mediaType := "application/oebps-package+xml".data,
    lcp := (lookupA ("opf".data) (keyToLCP main)).getD [],
    rtype := RType.opf }

/-- Registry state after the `FolderKeeper` constructor: the OPF is
registered in both indices (`CreateInfrastructureFiles`), nothing else. -/
def initialFolderKeeper (main : Path) : FolderKeeper :=
  { mFullPathToMainFolder := main,
    heap := [opfResData main],
    mResources := [0],
    mPath2Resource := [(relPathOf main (opfResData main).fullPath, some 0)],
    mFSWatcherFiles := [],
    mSuspendedWatchedFiles := [],
    mNCX := none,
    ctr := 1 }

/-- The registry operations of claim C1. An `add` carries the set of
files existing on disk at call time. -/
inductive Op where
  | add (disk : List Path) (p : Path) (mimetype : Path)
  | addNCX
  | remove (i : Nat)
  | rename (i : Nat) (newFullPath : Path)
  deriving DecidableEq

/-- In-place mutation of a resource object's full path
(`Resource::RenameTo`, performed by the caller before the `Renamed`
signal reaches `ResourceRenamed`). -/
def heapRename (h : List ResData) (i : Nat) (newP : Path) : List ResData :=
  h.map (fun rd => if rd.rid = i then { rd with fullPath := newP } else rd)

/-- One registry operation.  A failed `add` (missing source file) leaves
the state unchanged; `remove` and `rename` on an unknown pointer are
no-ops (C++ would dereference garbage). -/
def step (mtbl : MediaTypes) (fk : FolderKeeper) : Op → FolderKeeper
  | .add disk p mime =>
    match fk.addContentFileToFolder mtbl disk p true mime with
    | .ok r => r.1
    | .error _ => fk
  | .addNCX => fk.addNCXToFolder
  | .remove i =>
    match fk.resOf i with
    | some rd => fk.removeResource rd
    | none => fk
  | .rename i newP =>
    match fk.resOf i with
    | some rd =>
      FolderKeeper.resourceRenamed
        { fk with heap := heapRename fk.heap i newP }
        { rd with fullPath := newP } rd.fullPath
    | none => fk

def runOps (mtbl : MediaTypes) (fk : FolderKeeper) : List Op → FolderKeeper
  | [] => fk
  | op :: rest => runOps mtbl (step mtbl fk op) rest

/-- Preconditions under which an operation keeps the two indices in sync
(the amended claim C1): a META-INF add must stage a book path that is not
already registered (META-INF adds bypass the unique-name allocator); the
NCX may only be added while `OEBPS/toc.ncx` is unregistered; a resource
may be removed while registered (or, if stale, while its book path is
not re-registered); only a registered resource may be renamed, and only
to a fresh book path or its own. -/
def legalOp (fk : FolderKeeper) : Op → Bool
  | .add _ p _ =>
    !(containsSub ("META-INF".data) p) ||
      !((keysA fk.mPath2Resource).contains
        (relPathOf fk.mFullPathToMainFolder
          (fk.mFullPathToMainFolder ++
            rightQ p ((p.length : Int) - (fk.mFullPathToMainFolder.length : Int)))))
  | .addNCX =>
    !((keysA fk.mPath2Resource).contains
      (relPathOf fk.mFullPathToMainFolder (fk.mFullPathToMainFolder ++ "/OEBPS/toc.ncx".data)))
  | .remove i =>
    match fk.resOf i with
    | none => true
    | some rd =>
      fk.mResources.contains i ||
        !((keysA fk.mPath2Resource).contains (relPathOf fk.mFullPathToMainFolder rd.fullPath))
  | .rename i newP =>
    match fk.resOf i with
    | none => true
    | some rd =>
      fk.mResources.contains i &&
        (!((keysA fk.mPath2Resource).contains (relPathOf fk.mFullPathToMainFolder newP)) ||
          relPathOf fk.mFullPathToMainFolder newP == relPathOf fk.mFullPathToMainFolder rd.fullPath)

def legalSeq (mtbl : MediaTypes) (fk : FolderKeeper) : List Op → Bool
  | [] => true
  | op :: rest => legalOp fk op && legalSeq mtbl (step mtbl fk op) rest

/-- Invariant I1 of the spec, plus the bookkeeping that makes it
inductive: identifiers are unique, registered identifiers dereference,
book-path keys are unique, every registered resource has exactly one
entry of `m_Path2Resource` keyed by its current book path, and every
entry of `m_Path2Resource` is the entry of a registered resource. -/
structure Inv (fk : FolderKeeper) : Prop where
  heap_nodup : (fk.heap.map ResData.rid).Nodup
  heap_lt : ∀ rd ∈ fk.heap, rd.rid < fk.ctr
  byId_nodup : fk.mResources.Nodup
  byId_res : ∀ i ∈ fk.mResources, (fk.resOf i).isSome = true
  keys_nodup : (keysA fk.mPath2Resource).Nodup
  fwd : ∀ i ∈ fk.mResources, ∀ rd, fk.resOf i = some rd →
    (relPathOf fk.mFullPathToMainFolder rd.fullPath, some i) ∈ fk.mPath2Resource
  bwd : ∀ q ∈ fk.mPath2Resource, ∃ i rd, q.2 = some i ∧ i ∈ fk.mResources ∧
    fk.resOf i = some rd ∧ relPathOf fk.mFullPathToMainFolder rd.fullPath = q.1

/-- Case-insensitive pairwise distinctness of registered filenames
(invariant I3 of the spec). -/
def UniqNames (fk : FolderKeeper) : Prop :=
  fk.getAllFilenames.Pairwise (fun a b => ciEq a b = false)

/-- All existing names matching the pattern, as (value, captured width)
pairs, in scan order. -/
def specMatches (pfxv ext : Path) (l : List Path) : List (Nat × Nat) :=
  l.filterMap (matchCap pfxv ext)

/-- The maximum numeric suffix value among the matches. -/
def specMax (ms : List (Nat × Nat)) : Nat := (ms.map Prod.fst).foldr Nat.max 0

/-- The digit-width of the captured text of the maximum's match (the
first match attaining the maximum, in scan order). -/
def specWidth (ms : List (Nat × Nat)) : Nat :=
  ((ms.find? (fun q => q.1 == specMax ms)).map Prod.snd).getD 4

/-- The unique-name allocator as the spec's words describe it
(section 4.2): collect every existing name matching the pattern together
with its captured width, take the maximum suffix value and the width of
that maximum's capture (first in scan order), defaulting to value 0 and
width 4 when nothing matches, and append max+1 zero-padded to that
width. -/
def allocateSpec (existingNames : List Path) (desiredName : Path) : Path :=
  if ciMem desiredName existingNames = false then desiredName
  else
    let pfx := removeTrailingDigits (baseNameOf desiredName)
    let ext := completeSuffixOf desiredName
    let ms := specMatches pfx ext existingNames
    let value := if ms = [] then 0 else specMax ms
    let width := if ms = [] then 4 else specWidth ms
    pfx ++ padNum (value + 1) width ++ (if ext = [] then [] else '.' :: ext)

def isOkE {α : Type} (e : Except SigilErr α) : Bool :=
  match e with
  | .ok _ => true
  | .error _ => false


/-! ### Concrete fixtures for counterexamples and witnesses -/

/-- An empty classification table: every extension and media type is
unknown to it. -/
def mtbl0 : MediaTypes := ⟨[], [], []⟩

def cMain : Path := "/b".data

/-- A source file inside the META-INF directory. -/
def cMetaP : Path := "/b/META-INF/x.xml".data

/-- Adding the same existing META-INF file twice. -/
def c1ops : List Op := [Op.add [cMetaP] cMetaP [], Op.add [cMetaP] cMetaP []]

def c1state : FolderKeeper := runOps mtbl0 (initialFolderKeeper cMain) c1ops

/-- The resource object registered by the first META-INF add of `c1ops`. -/
def c1orphan : ResData :=
  { rid := 1, fullPath := cMetaP, mediaType := [], lcp := "/b/".data, rtype := RType.generic }

/-- An existing META-INF source file whose extension "zzz" no table knows. -/
def c5p : Path := "/b/META-INF/x.zzz".data

def c5res : Except SigilErr (FolderKeeper × Nat) :=
  (initialFolderKeeper cMain).addContentFileToFolder mtbl0 [c5p] c5p true []

/-- Book path of the resource registered by `c5res`. -/
def c5book : Path :=
  match c5res with
  | .ok q =>
    match q.1.resOf q.2 with
    | some rd => relPathOf cMain rd.fullPath
    | none => []
  | .error _ => []

def c5rtype : Option RType :=
  match c5res with
  | .ok q =>
    match q.1.resOf q.2 with
    | some rd => some rd.rtype
    | none => none
  | .error _ => none

/-- An ordinary (non-META-INF) source file with an unknown extension. -/
def wAddP : Path := "/x/ch.zzz".data

def wAddOp : Op := Op.add [wAddP] wAddP []

def wAddRes : Except SigilErr (FolderKeeper × Nat) :=
  (initialFolderKeeper cMain).addContentFileToFolder mtbl0 [wAddP] wAddP true []

/-- The state after adding `wAddP` to the fresh registry. -/
def wAddFk2 : FolderKeeper := step mtbl0 (initialFolderKeeper cMain) wAddOp

def wAddRd : ResData := addedRes (initialFolderKeeper cMain) mtbl0 wAddP []

/-- A registry with one path suspended from watching. -/
def wWatchFk : FolderKeeper :=
  { initialFolderKeeper cMain with
    mSuspendedWatchedFiles := ["/b/OEBPS/Text/a.xhtml".data] }

/-- A new full path for renaming the OPF resource in the witness. -/
def wRenP : Path := "/b/OEBPS/x.opf".data

/-! ## Character-level lemmas -/

theorem char_toNat_ofNat (n : Nat) (h : n.isValidChar) : (Char.ofNat n).toNat = n := by
  simp [Char.ofNat, h, Char.ofNatAux, Char.toNat, UInt32.toNat, BitVec.toNat_ofNatLt]

theorem lowerc_toNat_of_upper (c : Char) (h : 65 ≤ c.toNat ∧ c.toNat ≤ 90) :
    (lowerc c).toNat = c.toNat + 32 := by
  unfold lowerc
  rw [if_pos h]
  exact char_toNat_ofNat _ (Or.inl (by omega))

theorem lowerc_eq_of_notLower (c t : Char) (ht : ¬ (97 ≤ t.toNat ∧ t.toNat ≤ 122))
    (h : lowerc c = t) : c = t := by
  by_cases hc : 65 ≤ c.toNat ∧ c.toNat ≤ 90
  · have h2 := lowerc_toNat_of_upper c hc
    rw [h] at h2
    exact absurd ⟨by omega, by omega⟩ ht
  · unfold lowerc at h
    rw [if_neg hc] at h
    exact h

theorem isDigit_toNat (c : Char) (h : c.isDigit = true) : 48 ≤ c.toNat ∧ c.toNat ≤ 57 := by
  simp only [Char.isDigit, Bool.and_eq_true, decide_eq_true_eq] at h
  obtain ⟨h1, h2⟩ := h
  have e1 : ('0' : Char).toNat = 48 := by decide
  have e2 : ('9' : Char).toNat = 57 := by decide
  constructor
  · rw [← e1]; exact h1
  · rw [← e2]; exact h2

theorem lowerc_digit (c : Char) (h : c.isDigit = true) : lowerc c = c := by
  have := isDigit_toNat c h
  unfold lowerc
  rw [if_neg (by omega)]

theorem lowerc_eq_digit (c t : Char) (h : t.isDigit = true) (he : lowerc c = t) : c = t := by
  have := isDigit_toNat t h
  exact lowerc_eq_of_notLower c t (by omega) he

theorem lowerc_dot (c : Char) (h : lowerc c = '.') : c = '.' := by
  refine lowerc_eq_of_notLower c '.' ?_ h
  intro hc
  have : ('.' : Char).toNat = 46 := by decide
  omega

/-! ## Lemmas about `lower` and `ciEq` -/

theorem lower_append (a b : Path) : lower (a ++ b) = lower a ++ lower b :=
  List.map_append lowerc a b

theorem lower_length (a : Path) : (lower a).length = a.length := List.length_map a lowerc

theorem lower_digits (a : Path) (h : ∀ c ∈ a, c.isDigit = true) : lower a = a := by
  induction a with
  | nil => rfl
  | cons c t ih =>
    simp only [lower, List.map_cons]
    rw [lowerc_digit c (h c (List.mem_cons_self c t))]
    have := ih (fun x hx => h x (List.mem_cons_of_mem c hx))
    simpa [lower] using this

theorem eq_of_lower_eq_digits (g d : Path) (hd : ∀ c ∈ d, c.isDigit = true)
    (h : lower g = d) : g = d := by
  induction g generalizing d with
  | nil => simpa [lower] using h
  | cons c t ih =>
    cases d with
    | nil => simp [lower] at h
    | cons x xs =>
      simp only [lower, List.map_cons, List.cons.injEq] at h
      obtain ⟨h1, h2⟩ := h
      have hx : x.isDigit = true := hd x (List.mem_cons_self x xs)
      rw [lowerc_eq_digit c x hx h1]
      rw [ih xs (fun y hy => hd y (List.mem_cons_of_mem x hy)) h2]

theorem ciEq_true_iff (a b : Path) : ciEq a b = true ↔ lower a = lower b := by
  simp [ciEq]

theorem ciEq_refl (a : Path) : ciEq a a = true := by
  simp [ciEq]

theorem ciEq_symm_false (a b : Path) (h : ciEq a b = false) : ciEq b a = false := by
  simp only [ciEq, decide_eq_false_iff_not] at h ⊢
  exact fun he => h he.symm

/-- If `g` is case-insensitively equal to `g1' ++ (pad ++ g3')` with `pad`
all digits, then `g` splits the same way, with `pad` appearing verbatim. -/
theorem ci_decomp (g pfxv pad epv : Path) (hpad : ∀ c ∈ pad, c.isDigit = true)
    (h : lower g = lower pfxv ++ (pad ++ lower epv)) :
    ∃ g1 g3, g = g1 ++ (pad ++ g3) ∧ lower g1 = lower pfxv ∧ lower g3 = lower epv ∧
      g1.length = pfxv.length := by
  have hglen : g.length = pfxv.length + (pad.length + epv.length) := by
    have hc := congrArg List.length h
    simp only [lower_length, List.length_append] at hc
    omega
  have hrest : lower (g.drop pfxv.length) = pad ++ lower epv := by
    have h1 : (lower g).drop pfxv.length = pad ++ lower epv := by
      rw [h, List.drop_left' (lower_length pfxv)]
    rw [← h1]
    simp [lower, List.map_drop]
  have hmid : (g.drop pfxv.length).take pad.length = pad := by
    apply eq_of_lower_eq_digits _ _ hpad
    have h2 : lower ((g.drop pfxv.length).take pad.length) =
        (lower (g.drop pfxv.length)).take pad.length := by
      simp [lower, List.map_take]
    rw [h2, hrest, List.take_left]
  refine ⟨g.take pfxv.length, (g.drop pfxv.length).drop pad.length, ?_, ?_, ?_, ?_⟩
  · conv_lhs => rw [← List.take_append_drop pfxv.length g]
    congr 1
    conv_lhs => rw [← List.take_append_drop pad.length (g.drop pfxv.length)]
    rw [hmid]
  · have h3 : (lower g).take pfxv.length = lower pfxv := by
      rw [h, List.take_left' (lower_length pfxv)]
    rw [← h3]
    simp [lower, List.map_take]
  · have h4 : lower ((g.drop pfxv.length).drop pad.length) =
        (lower (g.drop pfxv.length)).drop pad.length := by
      simp [lower, List.map_drop]
    rw [h4, hrest, List.drop_left]
  · have : pfxv.length ≤ g.length := by omega
    simp [List.length_take]
    omega

/-! ## Decimal rendering and parsing -/

theorem digitChar_isDigit (n : Nat) : (digitChar n).isDigit = true := by
  unfold digitChar
  split <;> decide

theorem dval_digitChar (n : Nat) (h : n < 10) : dval (digitChar n) = n := by
  interval_cases n <;> decide

theorem decimalReprAux_digits (fuel n : Nat) :
    ∀ c ∈ decimalReprAux fuel n, c.isDigit = true := by
  induction fuel generalizing n with
  | zero =>
    intro c hc
    cases hc
  | succ f ih =>
    rw [decimalReprAux]
    split
    · intro c hc
      rw [List.mem_singleton] at hc
      subst hc
      exact digitChar_isDigit n
    · intro c hc
      rcases List.mem_append.mp hc with h1 | h2
      · exact ih (n / 10) c h1
      · rw [List.mem_singleton] at h2
        subst h2
        exact digitChar_isDigit _

theorem decimalRepr_digits (n : Nat) : ∀ c ∈ decimalRepr n, c.isDigit = true :=
  decimalReprAux_digits (n + 1) n

theorem decimalRepr_ne_nil (n : Nat) : decimalRepr n ≠ [] := by
  rw [decimalRepr, decimalReprAux]
  split
  · simp
  · simp

theorem digitsToNat_singleton (c : Char) : digitsToNat [c] = dval c := by
  simp [digitsToNat]

theorem digitsToNat_append_singleton (a : Path) (c : Char) :
    digitsToNat (a ++ [c]) = 10 * digitsToNat a + dval c := by
  simp [digitsToNat, List.foldl_append]

theorem digitsToNat_decimalReprAux (fuel n : Nat) (h : n < fuel) :
    digitsToNat (decimalReprAux fuel n) = n := by
  induction fuel generalizing n with
  | zero => omega
  | succ f ih =>
    rw [decimalReprAux]
    split
    · rename_i h10
      rw [digitsToNat_singleton, dval_digitChar n h10]
    · rename_i h10
      rw [digitsToNat_append_singleton, ih (n / 10) (by omega),
        dval_digitChar (n % 10) (Nat.mod_lt _ (by omega))]
      omega

theorem digitsToNat_decimalRepr (n : Nat) : digitsToNat (decimalRepr n) = n :=
  digitsToNat_decimalReprAux (n + 1) n (by omega)

theorem digitsToNat_cons_zero (t : Path) : digitsToNat ('0' :: t) = digitsToNat t := by
  have h : (10 * 0 + dval '0') = 0 := by decide
  simp only [digitsToNat, List.foldl_cons, h]

theorem digitsToNat_replicate_zeros (k : Nat) (s : Path) :
    digitsToNat (List.replicate k '0' ++ s) = digitsToNat s := by
  induction k with
  | zero => rfl
  | succ m ih =>
    rw [List.replicate_succ, List.cons_append, digitsToNat_cons_zero, ih]

theorem digitsToNat_padNum (n w : Nat) : digitsToNat (padNum n w) = n := by
  rw [padNum, digitsToNat_replicate_zeros, digitsToNat_decimalRepr]

theorem padNum_digits (n w : Nat) : ∀ c ∈ padNum n w, c.isDigit = true := by
  intro c hc
  rcases List.mem_append.mp hc with h1 | h2
  · rw [List.eq_of_mem_replicate h1]
    decide
  · exact decimalRepr_digits n c h2

theorem padNum_ne_nil (n w : Nat) : padNum n w ≠ [] := by
  rw [padNum]
  intro h
  rcases List.append_eq_nil.mp h with ⟨_, h2⟩
  exact decimalRepr_ne_nil n h2

/-! ## Evaluating the pattern match on a decomposed string -/

theorem takeWhile_digits_append (pad g3 : Path) (hpad : ∀ c ∈ pad, c.isDigit = true)
    (hg3 : ∀ c, g3.head? = some c → c.isDigit = false) :
    (pad ++ g3).takeWhile Char.isDigit = pad := by
  induction pad with
  | nil =>
    cases g3 with
    | nil => rfl
    | cons c t =>
      simp only [List.nil_append, List.takeWhile_cons, hg3 c rfl]
      simp
  | cons c t ih =>
    simp only [List.cons_append, List.takeWhile_cons, hpad c (List.mem_cons_self c t)]
    simp only [if_true]
    rw [ih (fun x hx => hpad x (List.mem_cons_of_mem c hx))]

theorem patMatch_shape_nil (pfxv g1 pad : Path) (hpad : ∀ c ∈ pad, c.isDigit = true)
    (h1 : lower g1 = lower pfxv) (hlen : g1.length = pfxv.length) :
    patMatch pfxv [] (g1 ++ pad) = some pad := by
  have hci : ciEq ((g1 ++ pad).take pfxv.length) pfxv = true := by
    rw [List.take_left' hlen, ciEq_true_iff]
    exact h1
  have hdrop : (g1 ++ pad).drop pfxv.length = pad := List.drop_left' hlen
  have htw : pad.takeWhile Char.isDigit = pad := by
    have := takeWhile_digits_append pad [] hpad (by intro c hc; cases hc)
    simpa using this
  unfold patMatch
  rw [hci]
  simp only [if_true, hdrop, htw, List.drop_length, if_pos rfl]

theorem patMatch_shape_cons (pfxv ext g1 pad g3 : Path) (hext : ext ≠ [])
    (hpad : ∀ c ∈ pad, c.isDigit = true)
    (h1 : lower g1 = lower pfxv) (hlen : g1.length = pfxv.length)
    (h3 : lower g3 = lower ('.' :: ext)) :
    patMatch pfxv ext (g1 ++ (pad ++ g3)) = some pad := by
  obtain ⟨c, e, rfl⟩ : ∃ c e, g3 = c :: e := by
    cases g3 with
    | nil => simp [lower] at h3
    | cons c e => exact ⟨c, e, rfl⟩
  have hdotlow : lowerc '.' = '.' := by decide
  simp only [lower, List.map_cons, hdotlow, List.cons.injEq] at h3
  obtain ⟨hcdot, he⟩ := h3
  have hc : c = '.' := lowerc_dot c hcdot
  subst hc
  have hci : ciEq ((g1 ++ (pad ++ '.' :: e)).take pfxv.length) pfxv = true := by
    rw [List.take_left' hlen, ciEq_true_iff]
    exact h1
  have hdrop : (g1 ++ (pad ++ '.' :: e)).drop pfxv.length = pad ++ '.' :: e :=
    List.drop_left' hlen
  have htw : (pad ++ '.' :: e).takeWhile Char.isDigit = pad := by
    refine takeWhile_digits_append pad ('.' :: e) hpad ?_
    intro x hx
    simp only [List.head?_cons, Option.some.injEq] at hx
    subst hx
    decide
  unfold patMatch
  rw [hci]
  simp only [if_true, hdrop, htw, List.drop_left]
  rw [if_neg hext]
  have hciext : ciEq e ext = true := by
    rw [ciEq_true_iff]
    exact he
  simp [hciext]

/-! ## Bounds from the suffix scan -/

theorem scanStep_fst_le (pfxv ext : Path) (acc : Int × Int) (x : Path) :
    acc.1 ≤ (scanStep pfxv ext acc x).1 := by
  unfold scanStep
  cases matchCap pfxv ext x with
  | none => exact le_refl _
  | some q =>
    dsimp only
    split
    · rename_i hq
      exact le_of_lt hq
    · exact le_refl _

theorem foldl_scanStep_fst_le (pfxv ext : Path) (l : List Path) (acc : Int × Int) :
    acc.1 ≤ (l.foldl (scanStep pfxv ext) acc).1 := by
  induction l generalizing acc with
  | nil => exact le_refl _
  | cons x t ih =>
    exact le_trans (scanStep_fst_le pfxv ext acc x) (ih _)

theorem foldl_scanStep_ge_match (pfxv ext : Path) (l : List Path) (acc : Int × Int)
    (g : Path) (hg : g ∈ l) (v w : Nat) (hm : matchCap pfxv ext g = some (v, w)) :
    (v : Int) ≤ (l.foldl (scanStep pfxv ext) acc).1 := by
  induction l generalizing acc with
  | nil => cases hg
  | cons x t ih =>
    rcases List.mem_cons.mp hg with rfl | h2
    · refine le_trans ?_ (foldl_scanStep_fst_le pfxv ext t _)
      unfold scanStep
      rw [hm]
      dsimp only
      split
      · exact le_refl _
      · rename_i hq
        omega
    · exact ih _ h2

/-! ## The allocator never returns a used name -/

theorem getUnique_absent (filenames : List Path) (filename : Path) :
    ciMem (getUniqueFilenameVersion filenames filename) filenames = false := by
  by_cases h0 : ciMem filename filenames = false
  · rw [getUniqueFilenameVersion, if_pos h0]
    exact h0
  · set pfxv := removeTrailingDigits (baseNameOf filename) with hpfx
    set ext := completeSuffixOf filename with hext
    set st := filenames.foldl (scanStep pfxv ext) (-1, -1) with hst
    set maxNum : Int := if st.1 = -1 then 0 else st.1 with hmaxNum
    set maxLen : Int := if st.1 = -1 then 4 else st.2 with hmaxLen
    set pad := padNum (maxNum + 1).toNat maxLen.toNat with hpadDef
    have hres : getUniqueFilenameVersion filenames filename =
        pfxv ++ pad ++ (if ext = [] then [] else '.' :: ext) := by
      rw [getUniqueFilenameVersion, if_neg h0]
    rw [hres]
    have hdig : ∀ c ∈ pad, c.isDigit = true := padNum_digits _ _
    rw [ciMem, List.any_eq_false]
    intro g hg
    intro hc
    have hlow : lower g = lower pfxv ++ (pad ++ lower (if ext = [] then [] else '.' :: ext)) := by
      rw [ciEq_true_iff] at hc
      rw [hc, lower_append, lower_append, lower_digits pad hdig, List.append_assoc]
    obtain ⟨g1, g3, hgeq, h1, h3, hlen1⟩ := ci_decomp g pfxv pad _ hdig hlow
    have hmatch : matchCap pfxv ext g = some (digitsToNat pad, pad.length) := by
      have hpm : patMatch pfxv ext g = some pad := by
        by_cases hE : ext = []
        · rw [hE] at h3 ⊢
          simp only [if_pos rfl, lower, List.map_nil] at h3
          have hg3nil : g3 = [] := by
            have := congrArg List.length h3
            simpa [lower] using this
          rw [hg3nil] at hgeq
          rw [hgeq, List.append_nil]
          exact patMatch_shape_nil pfxv g1 pad hdig h1 hlen1
        · rw [if_neg hE] at h3
          rw [hgeq]
          exact patMatch_shape_cons pfxv ext g1 pad g3 hE hdig h1 hlen1 h3
      rw [matchCap, hpm]
      simp only [toIntOpt, if_neg (show ¬ pad = [] from padNum_ne_nil _ _)]
    have hge := foldl_scanStep_ge_match pfxv ext filenames (-1, -1) g hg _ _ hmatch
    rw [← hst] at hge
    have hval : digitsToNat pad = (maxNum + 1).toNat := digitsToNat_padNum _ _
    have hlb : (-1 : Int) ≤ st.1 := by
      have := foldl_scanStep_fst_le pfxv ext filenames (-1, -1)
      rw [← hst] at this
      exact this
    by_cases hm1 : st.1 = -1
    · rw [hval] at hge
      rw [if_pos hm1] at hmaxNum
      rw [hmaxNum] at hge
      rw [hm1] at hge
      omega
    · rw [hval] at hge
      rw [if_neg hm1] at hmaxNum
      rw [hmaxNum] at hge
      omega

/-! ## Equivalence of the scan fold with the spec description -/

theorem foldr_max_le (l : List Nat) (a : Nat) (h : a ∈ l) : a ≤ l.foldr Nat.max 0 := by
  induction l with
  | nil => cases h
  | cons x t ih =>
    rcases List.mem_cons.mp h with rfl | h2
    · exact Nat.le_max_left _ _
    · exact le_trans (ih h2) (Nat.le_max_right _ _)

theorem foldr_max_append (l : List Nat) (v : Nat) :
    (l ++ [v]).foldr Nat.max 0 = Nat.max (l.foldr Nat.max 0) v := by
  induction l with
  | nil => simp [Nat.max_comm]
  | cons x t ih =>
    simp only [List.cons_append, List.foldr_cons, ih, Nat.max_assoc]

theorem foldr_max_attained (l : List Nat) (h : l ≠ []) : l.foldr Nat.max 0 ∈ l := by
  induction l with
  | nil => exact absurd rfl h
  | cons x t ih =>
    by_cases ht : t = []
    · subst ht
      simp
    · rw [List.foldr_cons]
      show max x (t.foldr Nat.max 0) ∈ x :: t
      rcases max_choice x (t.foldr Nat.max 0) with hm | hm
      · rw [hm]
        exact List.mem_cons_self x t
      · rw [hm]
        exact List.mem_cons_of_mem x (ih ht)

theorem specMax_append (ms : List (Nat × Nat)) (q : Nat × Nat) :
    specMax (ms ++ [q]) = Nat.max (specMax ms) q.1 := by
  rw [specMax, List.map_append, List.map_singleton, foldr_max_append]
  rfl

theorem specMax_le (ms : List (Nat × Nat)) (q : Nat × Nat) (h : q ∈ ms) :
    q.1 ≤ specMax ms :=
  foldr_max_le _ _ (List.mem_map_of_mem Prod.fst h)

theorem specMax_attained (ms : List (Nat × Nat)) (h : ms ≠ []) :
    ∃ q ∈ ms, q.1 = specMax ms := by
  have hm : specMax ms ∈ ms.map Prod.fst := by
    apply foldr_max_attained
    simpa using h
  obtain ⟨q, hq, hqe⟩ := List.mem_map.mp hm
  exact ⟨q, hq, hqe⟩

theorem foldl_scan_eq_spec (pfxv ext : Path) (l : List Path) :
    l.foldl (scanStep pfxv ext) (-1, -1) =
      if specMatches pfxv ext l = [] then (-1, -1)
      else ((specMax (specMatches pfxv ext l) : Int),
            (specWidth (specMatches pfxv ext l) : Int)) := by
  induction l using List.reverseRecOn with
  | nil => rfl
  | append_singleton t x ih =>
    rw [List.foldl_append, List.foldl_cons, List.foldl_nil, ih]
    cases hx : matchCap pfxv ext x with
    | none =>
      have hms : specMatches pfxv ext (t ++ [x]) = specMatches pfxv ext t := by
        simp [specMatches, List.filterMap_append, hx]
      rw [hms]
      by_cases ht : specMatches pfxv ext t = []
      · rw [if_pos ht, scanStep, hx]
      · rw [if_neg ht, scanStep, hx]
    | some q =>
      obtain ⟨v, w⟩ := q
      have hms : specMatches pfxv ext (t ++ [x]) = specMatches pfxv ext t ++ [(v, w)] := by
        simp [specMatches, List.filterMap_append, hx]
      rw [hms]
      by_cases ht : specMatches pfxv ext t = []
      · rw [ht, if_pos rfl, if_neg (by simp), scanStep, hx]
        dsimp only
        rw [if_pos (by omega)]
        have hmax : specMax ([] ++ [(v, w)]) = v := by
          rw [specMax_append]
          simp [specMax]
        rw [List.nil_append] at hmax ⊢
        rw [hmax]
        have hwidth : specWidth [(v, w)] = w := by
          rw [specWidth, hmax]
          simp
        rw [hwidth]
      · rw [if_neg ht, if_neg (by simp), scanStep, hx]
        dsimp only
        by_cases hv : ((v : Int), (w : Int)).1 > ((specMax (specMatches pfxv ext t) : Int),
            (specWidth (specMatches pfxv ext t) : Int)).1
        · rw [if_pos hv]
          dsimp only at hv
          have hvn : specMax (specMatches pfxv ext t) < v := by exact_mod_cast hv
          have hmax : specMax (specMatches pfxv ext t ++ [(v, w)]) = v := by
            rw [specMax_append]
            exact Nat.max_eq_right (le_of_lt hvn)
          have hwidth : specWidth (specMatches pfxv ext t ++ [(v, w)]) = w := by
            rw [specWidth, hmax]
            have hnone : (specMatches pfxv ext t).find? (fun q => q.1 == v) = none := by
              rw [List.find?_eq_none]
              intro q hq
              simp only [beq_iff_eq]
              intro hqe
              have := specMax_le _ q hq
              omega
            rw [List.find?_append, hnone]
            simp
          rw [hmax, hwidth]
        · rw [if_neg hv]
          dsimp only at hv
          have hvn : v ≤ specMax (specMatches pfxv ext t) := by
            have := hv
            omega
          have hmax : specMax (specMatches pfxv ext t ++ [(v, w)]) =
              specMax (specMatches pfxv ext t) := by
            rw [specMax_append]
            exact Nat.max_eq_left hvn
          have hfind : (specMatches pfxv ext t ++ [(v, w)]).find?
                (fun q => q.1 == specMax (specMatches pfxv ext t)) =
              (specMatches pfxv ext t).find?
                (fun q => q.1 == specMax (specMatches pfxv ext t)) := by
            have hsome : ((specMatches pfxv ext t).find?
                (fun q => q.1 == specMax (specMatches pfxv ext t))).isSome := by
              rw [List.find?_isSome]
              obtain ⟨q, hq, hqe⟩ := specMax_attained _ ht
              exact ⟨q, hq, by simp [hqe]⟩
            obtain ⟨r, hr⟩ := Option.isSome_iff_exists.mp hsome
            rw [List.find?_append, hr]
            rfl
          have hwidth : specWidth (specMatches pfxv ext t ++ [(v, w)]) =
              specWidth (specMatches pfxv ext t) := by
            rw [specWidth, hmax, hfind]
            rfl
          rw [hmax, hwidth]

theorem getUnique_eq_allocateSpec (names : List Path) (d : Path) :
    getUniqueFilenameVersion names d = allocateSpec names d := by
  by_cases h0 : ciMem d names = false
  · rw [getUniqueFilenameVersion, if_pos h0, allocateSpec, if_pos h0]
  · simp only [getUniqueFilenameVersion, allocateSpec]
    rw [if_neg h0, if_neg h0, foldl_scan_eq_spec]
    set ms := specMatches (removeTrailingDigits (baseNameOf d)) (completeSuffixOf d) names
      with hmsd
    by_cases hms : ms = []
    · rw [if_pos hms, if_pos hms, if_pos hms]
      rfl
    · rw [if_neg hms, if_neg hms, if_neg hms]
      dsimp only
      have hne : ¬ ((specMax ms : Int) = -1) := by omega
      simp only [if_neg hne]
      have e1 : ((specMax ms : Int) + 1).toNat = specMax ms + 1 := by omega
      have e2 : ((specWidth ms : Int)).toNat = specWidth ms := by omega
      rw [e1, e2]

theorem matchCapQ_eq (pfx ext name : Path)
    (h : ∀ v w, matchCap pfx ext name = some (v, w) → v ≤ 2147483647) :
    matchCapQ pfx ext name = matchCap pfx ext name := by
  cases hp : patMatch pfx ext name with
  | none => simp only [matchCapQ, matchCap, hp]
  | some cap =>
    simp only [matchCapQ, matchCap, hp]
    by_cases hc : cap = []
    · rw [toIntQ, toIntOpt, if_pos (Or.inl hc), if_pos hc]
    · have hv : digitsToNat cap ≤ 2147483647 := by
        apply h (digitsToNat cap) cap.length
        simp only [matchCap, hp, toIntOpt, if_neg hc]
      have hcond : ¬ (cap = [] ∨ 2147483647 < digitsToNat cap) := by
        intro hor
        rcases hor with h1 | h2
        · exact hc h1
        · omega
      rw [toIntQ, toIntOpt, if_neg hcond, if_neg hc]

theorem foldl_scanQ_eq (pfx ext : Path) (l : List Path) (acc : Int × Int)
    (h : ∀ name ∈ l, ∀ v w, matchCap pfx ext name = some (v, w) → v ≤ 2147483647) :
    l.foldl (scanStepQ pfx ext) acc = l.foldl (scanStep pfx ext) acc := by
  induction l generalizing acc with
  | nil => rfl
  | cons a t ih =>
    rw [List.foldl_cons, List.foldl_cons]
    have ha : scanStepQ pfx ext acc a = scanStep pfx ext acc a := by
      rw [scanStepQ, scanStep, matchCapQ_eq pfx ext a
        (h a (List.mem_cons_self _ _))]
    rw [ha]
    exact ih _ (fun name hn => h name (List.mem_cons_of_mem _ hn))

/-- When every captured suffix value among the existing names is within
32-bit `int` range, the range check of `QString::toInt` never fires and
the exact allocator agrees with the idealized one. -/
theorem getUniqueQ_eq (filenames : List Path) (filename : Path)
    (h : ∀ vw ∈ specMatches (removeTrailingDigits (baseNameOf filename))
        (completeSuffixOf filename) filenames, vw.1 ≤ 2147483647) :
    getUniqueFilenameVersionQ filenames filename =
      getUniqueFilenameVersion filenames filename := by
  by_cases h0 : ciMem filename filenames = false
  · rw [getUniqueFilenameVersionQ, if_pos h0, getUniqueFilenameVersion, if_pos h0]
  · simp only [getUniqueFilenameVersionQ, getUniqueFilenameVersion]
    rw [if_neg h0, if_neg h0]
    have hfold : filenames.foldl
        (scanStepQ (removeTrailingDigits (baseNameOf filename)) (completeSuffixOf filename))
        (-1, -1) =
        filenames.foldl
        (scanStep (removeTrailingDigits (baseNameOf filename)) (completeSuffixOf filename))
        (-1, -1) := by
      apply foldl_scanQ_eq
      intro name hn v w hm
      exact h (v, w) (List.mem_filterMap.mpr ⟨name, hn, hm⟩)
    rw [hfold]

/-! ## Association-list lemmas -/

theorem lookupA_eq_none {α : Type} (k : Path) (l : List (Path × α)) (h : k ∉ keysA l) :
    lookupA k l = none := by
  induction l with
  | nil => rfl
  | cons q t ih =>
    rw [lookupA]
    rw [if_neg]
    · exact ih (fun hm => h (List.mem_cons_of_mem _ hm))
    · intro he
      exact h (by rw [← he]; exact List.mem_cons_self _ _)

theorem lookupA_mem {α : Type} (k : Path) (v : α) (l : List (Path × α))
    (hnd : (keysA l).Nodup) (h : (k, v) ∈ l) : lookupA k l = some v := by
  induction l with
  | nil => cases h
  | cons q t ih =>
    obtain ⟨k1, v1⟩ := q
    have hnd2 : k1 ∉ keysA t ∧ (keysA t).Nodup := by
      have : keysA ((k1, v1) :: t) = k1 :: keysA t := rfl
      rw [this, List.nodup_cons] at hnd
      exact hnd
    rcases List.mem_cons.mp h with heq | h2
    · cases heq
      rw [lookupA, if_pos rfl]
    · rw [lookupA]
      rw [if_neg]
      · exact ih hnd2.2 h2
      · intro he
        subst he
        exact hnd2.1 (List.mem_map_of_mem Prod.fst h2)

theorem eq_value_of_nodup {α : Type} (l : List (Path × α)) (hnd : (keysA l).Nodup)
    (k : Path) (v1 v2 : α) (h1 : (k, v1) ∈ l) (h2 : (k, v2) ∈ l) : v1 = v2 := by
  have e1 := lookupA_mem k v1 l hnd h1
  have e2 := lookupA_mem k v2 l hnd h2
  rw [e1] at e2
  exact Option.some.inj e2

theorem insertA_not_mem {α : Type} (k : Path) (v : α) (l : List (Path × α))
    (h : k ∉ keysA l) : insertA k v l = l ++ [(k, v)] := by
  induction l with
  | nil => rfl
  | cons q t ih =>
    rw [insertA]
    rw [if_neg]
    · rw [ih (fun hm => h (List.mem_cons_of_mem _ hm)), List.cons_append]
    · intro he
      exact h (by rw [← he]; exact List.mem_cons_self _ _)

theorem eraseA_not_mem {α : Type} (k : Path) (l : List (Path × α))
    (h : k ∉ keysA l) : eraseA k l = l := by
  induction l with
  | nil => rfl
  | cons q t ih =>
    rw [eraseA]
    rw [if_neg]
    · rw [ih (fun hm => h (List.mem_cons_of_mem _ hm))]
    · intro he
      exact h (by rw [← he]; exact List.mem_cons_self _ _)

theorem keysA_eraseA {α : Type} (k : Path) (l : List (Path × α)) :
    keysA (eraseA k l) = (keysA l).erase k := by
  induction l with
  | nil => rfl
  | cons q t ih =>
    obtain ⟨k1, v1⟩ := q
    by_cases he : k1 = k
    · subst he
      rw [eraseA, if_pos rfl]
      show keysA t = (k1 :: keysA t).erase k1
      rw [List.erase_cons_head]
    · rw [eraseA, if_neg he]
      show k1 :: keysA (eraseA k t) = (k1 :: keysA t).erase k
      rw [List.erase_cons_tail (by simp [he])]
      rw [ih]

theorem mem_eraseA_of_ne {α : Type} (k : Path) (q : Path × α) (l : List (Path × α))
    (h : q ∈ l) (hne : q.1 ≠ k) : q ∈ eraseA k l := by
  induction l with
  | nil => cases h
  | cons r t ih =>
    rcases List.mem_cons.mp h with rfl | h2
    · rw [eraseA, if_neg hne]
      exact List.mem_cons_self _ _
    · rw [eraseA]
      split
      · exact h2
      · exact List.mem_cons_of_mem _ (ih h2)

theorem mem_of_mem_eraseA {α : Type} (k : Path) (q : Path × α) (l : List (Path × α))
    (h : q ∈ eraseA k l) : q ∈ l := by
  induction l with
  | nil => cases h
  | cons r t ih =>
    rw [eraseA] at h
    split at h
    · exact List.mem_cons_of_mem _ h
    · rcases List.mem_cons.mp h with rfl | h2
      · exact List.mem_cons_self _ _
      · exact List.mem_cons_of_mem _ (ih h2)

theorem key_ne_of_mem_eraseA {α : Type} (k : Path) (q : Path × α) (l : List (Path × α))
    (hnd : (keysA l).Nodup) (h : q ∈ eraseA k l) : q.1 ≠ k := by
  intro he
  have hm : q.1 ∈ keysA (eraseA k l) := List.mem_map_of_mem Prod.fst h
  rw [keysA_eraseA] at hm
  rw [he] at hm
  exact (List.Nodup.mem_erase_iff hnd).mp hm |>.1 rfl

theorem mem_insertA_self {α : Type} (k : Path) (v : α) (l : List (Path × α)) :
    (k, v) ∈ insertA k v l := by
  induction l with
  | nil => exact List.mem_cons_self _ _
  | cons q t ih =>
    rw [insertA]
    split
    · exact List.mem_cons_self _ _
    · exact List.mem_cons_of_mem _ ih

theorem mem_insertA_of_ne {α : Type} (k : Path) (v : α) (q : Path × α)
    (l : List (Path × α)) (h : q ∈ l) (hne : q.1 ≠ k) : q ∈ insertA k v l := by
  induction l with
  | nil => cases h
  | cons r t ih =>
    rw [insertA]
    split
    · rename_i he
      rcases List.mem_cons.mp h with rfl | h2
      · exact absurd he hne
      · exact List.mem_cons_of_mem _ h2
    · rcases List.mem_cons.mp h with rfl | h2
      · exact List.mem_cons_self _ _
      · exact List.mem_cons_of_mem _ (ih h2)

theorem mem_insertA_elim {α : Type} (k : Path) (v : α) (q : Path × α)
    (l : List (Path × α)) (hnd : (keysA l).Nodup) (h : q ∈ insertA k v l) :
    q = (k, v) ∨ (q ∈ l ∧ q.1 ≠ k) := by
  induction l with
  | nil =>
    rcases List.mem_cons.mp h with rfl | h2
    · exact Or.inl rfl
    · cases h2
  | cons r t ih =>
    rw [keysA, List.map_cons, List.nodup_cons] at hnd
    rw [insertA] at h
    split at h
    · rename_i he
      rcases List.mem_cons.mp h with rfl | h2
      · exact Or.inl rfl
      · refine Or.inr ⟨List.mem_cons_of_mem _ h2, ?_⟩
        intro hq
        rw [← he] at hq
        exact hnd.1 (hq ▸ List.mem_map_of_mem Prod.fst h2)
    · rename_i he
      rcases List.mem_cons.mp h with rfl | h2
      · exact Or.inr ⟨List.mem_cons_self _ _, he⟩
      · rcases ih hnd.2 h2 with h3 | h3
        · exact Or.inl h3
        · exact Or.inr ⟨List.mem_cons_of_mem _ h3.1, h3.2⟩

theorem keysA_insertA_not_mem {α : Type} (k : Path) (v : α) (l : List (Path × α))
    (h : k ∉ keysA l) : keysA (insertA k v l) = keysA l ++ [k] := by
  rw [insertA_not_mem k v l h, keysA, List.map_append]
  rfl

theorem keysA_insertA_mem {α : Type} (k : Path) (v : α) (l : List (Path × α))
    (h : k ∈ keysA l) : keysA (insertA k v l) = keysA l := by
  induction l with
  | nil => cases h
  | cons r t ih =>
    obtain ⟨k1, v1⟩ := r
    rw [insertA]
    split
    · rename_i he
      show k :: keysA t = k1 :: keysA t
      rw [he]
    · rename_i he
      show k1 :: keysA (insertA k v t) = k1 :: keysA t
      rw [ih]
      have h2 : keysA ((k1, v1) :: t) = k1 :: keysA t := rfl
      rw [h2] at h
      rcases List.mem_cons.mp h with h3 | h3
      · exact absurd h3.symm he
      · exact h3

theorem nodup_keysA_insertA {α : Type} (k : Path) (v : α) (l : List (Path × α))
    (hnd : (keysA l).Nodup) : (keysA (insertA k v l)).Nodup := by
  by_cases h : k ∈ keysA l
  · rw [keysA_insertA_mem k v l h]
    exact hnd
  · rw [keysA_insertA_not_mem k v l h]
    rw [List.nodup_append]
    exact ⟨hnd, List.nodup_singleton k, by simpa using h⟩

/-! ## Path decomposition lemmas -/

theorem takeWhile_append_eq (p : Char → Bool) (a b : Path) (ha : ∀ c ∈ a, p c = true)
    (hb : ∀ c, b.head? = some c → p c = false) : (a ++ b).takeWhile p = a := by
  induction a with
  | nil =>
    cases b with
    | nil => rfl
    | cons c t =>
      rw [List.nil_append, List.takeWhile_cons, hb c rfl]
      rfl
  | cons c t ih =>
    rw [List.cons_append, List.takeWhile_cons, ha c (List.mem_cons_self c t)]
    rw [ih (fun x hx => ha x (List.mem_cons_of_mem c hx))]
    simp

theorem fileNameOf_append_slash (x f : Path) (hf : '/' ∉ f) :
    fileNameOf (x ++ '/' :: f) = f := by
  rw [fileNameOf, List.reverse_append, List.reverse_cons]
  have h1 : (f.reverse ++ ['/']) ++ x.reverse = f.reverse ++ ('/' :: x.reverse) := by
    simp
  rw [h1, takeWhile_append_eq _ f.reverse ('/' :: x.reverse), List.reverse_reverse]
  · intro c hc
    rw [decide_eq_true_eq]
    intro he
    subst he
    exact hf (List.mem_reverse.mp hc)
  · intro c hc
    rw [List.head?_cons, Option.some.injEq] at hc
    subst hc
    simp

theorem fileNameOf_noSlash (q : Path) : '/' ∉ fileNameOf q := by
  intro h
  rw [fileNameOf, List.mem_reverse] at h
  have := List.mem_takeWhile_imp h
  rw [decide_eq_true_eq] at this
  exact this rfl

theorem mem_of_mem_fileNameOf (c : Char) (q : Path) (h : c ∈ fileNameOf q) : c ∈ q := by
  rw [fileNameOf, List.mem_reverse] at h
  have := (List.takeWhile_sublist _).mem h
  exact List.mem_reverse.mp this

theorem relPathOf_append (main r : Path) : relPathOf main (main ++ '/' :: r) = r := by
  rw [relPathOf]
  rw [if_neg (by simp)]
  have h1 : main ++ '/' :: r = (main ++ ['/']) ++ r := by simp
  have h2 : main.length + 1 = (main ++ ['/']).length := by simp
  rw [h1, h2, List.drop_left]

theorem relPathOf_split (main full : Path) :
    full = full.take (full.length - (relPathOf main full).length) ++ relPathOf main full := by
  rw [relPathOf]
  split
  · simp
  · rename_i h
    have h2 : (full.drop (main.length + 1)).length = full.length - (main.length + 1) := by
      simp
    rw [h2]
    have h3 : full.length - (full.length - (main.length + 1)) = main.length + 1 := by omega
    rw [h3]
    exact (List.take_append_drop (main.length + 1) full).symm

/-! ## Heap and registry helper lemmas -/

theorem resOf_rid (fk : FolderKeeper) (i : Nat) (rd : ResData)
    (h : fk.resOf i = some rd) : rd.rid = i := by
  have := List.find?_some h
  simpa using this

theorem resOf_mem_heap (fk : FolderKeeper) (i : Nat) (rd : ResData)
    (h : fk.resOf i = some rd) : rd ∈ fk.heap :=
  List.mem_of_find?_eq_some h

theorem find?_rid_append_old (h : List ResData) (rds : List ResData) (i : Nat) (x : ResData)
    (hx : h.find? (fun r => r.rid == i) = some x) :
    (h ++ rds).find? (fun r => r.rid == i) = some x := by
  rw [List.find?_append, hx]
  rfl

theorem find?_rid_append_new (h : List ResData) (rd : ResData) (i : Nat)
    (hn : ∀ r ∈ h, r.rid ≠ i) (hr : rd.rid = i) :
    (h ++ [rd]).find? (fun r => r.rid == i) = some rd := by
  rw [List.find?_append, List.find?_eq_none.mpr]
  · simp [List.find?, hr]
  · intro x hx
    simp only [beq_iff_eq]
    exact hn x hx

theorem filename_mem_getAllFilenames (fk : FolderKeeper) (i : Nat) (rd : ResData)
    (hi : i ∈ fk.mResources) (hr : fk.resOf i = some rd) :
    fileNameOf rd.fullPath ∈ fk.getAllFilenames := by
  rw [FolderKeeper.getAllFilenames]
  apply List.mem_map_of_mem
  rw [FolderKeeper.resources]
  exact List.mem_filterMap.mpr ⟨i, hi, hr⟩

theorem ciMem_of_mem (f : Path) (names : List Path) (h : f ∈ names) : ciMem f names = true := by
  rw [ciMem, List.any_eq_true]
  exact ⟨f, h, ciEq_refl f⟩

theorem mem_of_mem_removeTrailingDigits (c : Char) (q : Path)
    (h : c ∈ removeTrailingDigits q) : c ∈ q := by
  rw [removeTrailingDigits, List.mem_reverse] at h
  exact List.mem_reverse.mp ((List.dropWhile_sublist _).subset h)

theorem mem_of_mem_baseNameOf (c : Char) (q : Path) (h : c ∈ baseNameOf q) :
    c ∈ fileNameOf q :=
  (List.takeWhile_sublist _).subset h

theorem mem_of_mem_completeSuffixOf (c : Char) (q : Path) (h : c ∈ completeSuffixOf q) :
    c ∈ fileNameOf q := by
  rw [completeSuffixOf] at h
  split at h
  · exact (List.drop_sublist _ _).subset h
  · cases h

theorem getUnique_noSlash (names : List Path) (f : Path) (hf : '/' ∉ f) :
    '/' ∉ getUniqueFilenameVersion names f := by
  by_cases h0 : ciMem f names = false
  · rw [getUniqueFilenameVersion, if_pos h0]
    exact hf
  · have hfn : '/' ∉ fileNameOf f := fileNameOf_noSlash f
    set pfxv := removeTrailingDigits (baseNameOf f) with hp
    set ext := completeSuffixOf f with he
    set st := names.foldl (scanStep pfxv ext) (-1, -1) with hs
    set pad := padNum ((if st.1 = -1 then 0 else st.1) + 1).toNat
      (if st.1 = -1 then 4 else st.2).toNat with hpd
    have hres : getUniqueFilenameVersion names f =
        pfxv ++ pad ++ (if ext = [] then [] else '.' :: ext) := by
      rw [getUniqueFilenameVersion, if_neg h0]
    rw [hres]
    intro hmem
    rcases List.mem_append.mp hmem with h1 | h2
    · rcases List.mem_append.mp h1 with h3 | h4
      · exact hfn (mem_of_mem_baseNameOf _ _ (mem_of_mem_removeTrailingDigits _ _ h3))
      · have := padNum_digits _ _ _ h4
        have h5 : ('/' : Char).isDigit = false := by decide
        rw [h5] at this
        cases this
    · split at h2
      · cases h2
      · rcases List.mem_cons.mp h2 with h3 | h3
        · cases h3
        · exact hfn (mem_of_mem_completeSuffixOf _ _ h3)

/-! ## Invariant preservation -/

theorem inv_insert_fresh (fk fk2 : FolderKeeper) (rd : ResData) (hInv : Inv fk)
    (hmain : fk2.mFullPathToMainFolder = fk.mFullPathToMainFolder)
    (hheap : fk2.heap = fk.heap ++ [rd])
    (hres : fk2.mResources = insertId fk.mResources rd.rid)
    (hmap : fk2.mPath2Resource =
      insertA (relPathOf fk.mFullPathToMainFolder rd.fullPath) (some rd.rid) fk.mPath2Resource)
    (hctr : fk2.ctr = fk.ctr + 1)
    (hrid : rd.rid = fk.ctr)
    (hbp : relPathOf fk.mFullPathToMainFolder rd.fullPath ∉ keysA fk.mPath2Resource) :
    Inv fk2 := by
  have hnew : ∀ r ∈ fk.heap, r.rid ≠ rd.rid := by
    intro r hr he
    have := hInv.heap_lt r hr
    omega
  have hnotmem : rd.rid ∉ fk.mResources := by
    intro hm
    have hsome := hInv.byId_res rd.rid hm
    obtain ⟨x, hx⟩ := Option.isSome_iff_exists.mp hsome
    have h1 := resOf_rid fk rd.rid x hx
    have h2 := resOf_mem_heap fk rd.rid x hx
    exact hnew x h2 h1
  have hres2 : fk2.mResources = fk.mResources ++ [rd.rid] := by
    rw [hres, insertId, if_neg hnotmem]
  have hmap2 : fk2.mPath2Resource =
      fk.mPath2Resource ++ [(relPathOf fk.mFullPathToMainFolder rd.fullPath, some rd.rid)] := by
    rw [hmap, insertA_not_mem _ _ _ hbp]
  have hro_old : ∀ i x, fk.resOf i = some x → fk2.resOf i = some x := by
    intro i x hx
    rw [FolderKeeper.resOf, hheap]
    exact find?_rid_append_old _ _ _ _ hx
  have hro_new : fk2.resOf rd.rid = some rd := by
    rw [FolderKeeper.resOf, hheap]
    exact find?_rid_append_new _ _ _ hnew rfl
  refine ⟨?_, ?_, ?_, ?_, ?_, ?_, ?_⟩
  · rw [hheap, List.map_append]
    rw [List.nodup_append]
    refine ⟨hInv.heap_nodup, List.nodup_singleton _, ?_⟩
    intro a ha
    simp only [List.map_cons, List.map_nil, List.mem_singleton]
    intro hb
    obtain ⟨r, hr, hre⟩ := List.mem_map.mp ha
    exact hnew r hr (hre.trans hb)
  · intro r hr
    rw [hheap] at hr
    rw [hctr]
    rcases List.mem_append.mp hr with h1 | h1
    · have := hInv.heap_lt r h1
      omega
    · rw [List.mem_singleton] at h1
      subst h1
      omega
  · rw [hres2]
    rw [List.nodup_append]
    refine ⟨hInv.byId_nodup, List.nodup_singleton _, ?_⟩
    intro a ha
    simp only [List.mem_singleton]
    intro hb
    rw [hb] at ha
    exact hnotmem ha
  · intro i hi
    rw [hres2] at hi
    rcases List.mem_append.mp hi with h1 | h1
    · obtain ⟨x, hx⟩ := Option.isSome_iff_exists.mp (hInv.byId_res i h1)
      rw [hro_old i x hx]
      rfl
    · rw [List.mem_singleton] at h1
      subst h1
      rw [hro_new]
      rfl
  · rw [hmap2, keysA, List.map_append]
    rw [List.nodup_append]
    refine ⟨hInv.keys_nodup, List.nodup_singleton _, ?_⟩
    intro a ha
    simp only [List.map_cons, List.map_nil, List.mem_singleton]
    intro hb
    rw [hb] at ha
    exact hbp ha
  · intro i hi rd2 hrd2
    rw [hres2] at hi
    rw [hmain, hmap2]
    rcases List.mem_append.mp hi with h1 | h1
    · obtain ⟨x, hx⟩ := Option.isSome_iff_exists.mp (hInv.byId_res i h1)
      have h2 := hro_old i x hx
      rw [h2] at hrd2
      injection hrd2 with h3
      rw [← h3]
      exact List.mem_append_left _ (hInv.fwd i h1 x hx)
    · rw [List.mem_singleton] at h1
      subst h1
      rw [hro_new] at hrd2
      injection hrd2 with h3
      subst h3
      exact List.mem_append_right _ (List.mem_singleton.mpr rfl)
  · intro q hq
    rw [hmap2] at hq
    rw [hmain]
    rcases List.mem_append.mp hq with h1 | h1
    · obtain ⟨i, rd2, hv, hm, hr2, hrel⟩ := hInv.bwd q h1
      refine ⟨i, rd2, hv, ?_, hro_old i rd2 hr2, hrel⟩
      rw [hres2]
      exact List.mem_append_left _ hm
    · rw [List.mem_singleton] at h1
      subst h1
      refine ⟨rd.rid, rd, rfl, ?_, hro_new, rfl⟩
      rw [hres2]
      exact List.mem_append_right _ (List.mem_singleton.mpr rfl)

theorem find?_heapRename_self (h : List ResData) (i : Nat) (newP : Path) (rd : ResData)
    (hf : h.find? (fun r => r.rid == i) = some rd) :
    (heapRename h i newP).find? (fun r => r.rid == i) =
      some { rd with fullPath := newP } := by
  induction h with
  | nil => cases hf
  | cons x t ih =>
    rw [List.find?_cons] at hf
    by_cases hx : x.rid = i
    · have hxb : (x.rid == i) = true := by simp [hx]
      rw [hxb] at hf
      have hxr : x = rd := Option.some.inj hf
      rw [heapRename, List.map_cons, if_pos hx, List.find?_cons]
      have hxb2 : (({ x with fullPath := newP } : ResData).rid == i) = true := by
        show (x.rid == i) = true
        exact hxb
      rw [hxb2, hxr]
    · have hxb : (x.rid == i) = false := by simp [hx]
      rw [hxb] at hf
      rw [heapRename, List.map_cons, if_neg hx, List.find?_cons, hxb]
      exact ih hf

theorem find?_heapRename_ne (h : List ResData) (i j : Nat) (newP : Path) (hne : j ≠ i) :
    (heapRename h i newP).find? (fun r => r.rid == j) = h.find? (fun r => r.rid == j) := by
  induction h with
  | nil => rfl
  | cons x t ih =>
    by_cases hx : x.rid = i
    · rw [heapRename, List.map_cons, if_pos hx, List.find?_cons, List.find?_cons]
      have h1 : (({ x with fullPath := newP } : ResData).rid == j) = false := by
        show (x.rid == j) = false
        rw [beq_eq_false_iff_ne]
        omega
      rw [h1]
      exact ih
    · rw [heapRename, List.map_cons, if_neg hx, List.find?_cons, List.find?_cons]
      by_cases hxj : x.rid = j
      · have h1 : (x.rid == j) = true := by simp [hxj]
        rw [h1]
      · have h1 : (x.rid == j) = false := by simp [hxj]
        rw [h1]
        exact ih

theorem map_rid_heapRename (h : List ResData) (i : Nat) (newP : Path) :
    (heapRename h i newP).map ResData.rid = h.map ResData.rid := by
  induction h with
  | nil => rfl
  | cons x t ih =>
    rw [heapRename, List.map_cons, List.map_cons, List.map_cons]
    have hhead : (if x.rid = i then ({ x with fullPath := newP } : ResData) else x).rid =
        x.rid := by
      split <;> rfl
    rw [hhead]
    have htail : List.map ResData.rid (List.map
        (fun rd => if rd.rid = i then { rd with fullPath := newP } else rd) t) =
        List.map ResData.rid t := ih
    rw [htail]

theorem inv_removeResource (fk : FolderKeeper) (rd : ResData) (hInv : Inv fk)
    (hcase : rd.rid ∈ fk.mResources ∨
      relPathOf fk.mFullPathToMainFolder rd.fullPath ∉ keysA fk.mPath2Resource)
    (hheap : fk.resOf rd.rid = some rd) :
    Inv (fk.removeResource rd) := by
  rcases hcase with hm | hk
  · have hent : (relPathOf fk.mFullPathToMainFolder rd.fullPath, some rd.rid) ∈
        fk.mPath2Resource := hInv.fwd rd.rid hm rd hheap
    refine ⟨hInv.heap_nodup, hInv.heap_lt, ?_, ?_, ?_, ?_, ?_⟩
    · exact hInv.byId_nodup.erase _
    · intro i hi
      exact hInv.byId_res i (List.mem_of_mem_erase hi)
    · show (keysA (eraseA (relPathOf fk.mFullPathToMainFolder rd.fullPath)
        fk.mPath2Resource)).Nodup
      rw [keysA_eraseA]
      exact hInv.keys_nodup.erase _
    · intro i hi rd2 hr2
      have hi2 := (hInv.byId_nodup.mem_erase_iff).mp hi
      have hent2 := hInv.fwd i hi2.2 rd2 hr2
      apply mem_eraseA_of_ne _ _ _ hent2
      show relPathOf fk.mFullPathToMainFolder rd2.fullPath ≠
        relPathOf fk.mFullPathToMainFolder rd.fullPath
      intro hkey
      have hent3 : (relPathOf fk.mFullPathToMainFolder rd.fullPath, some i) ∈
          fk.mPath2Resource := by
        rw [← hkey]
        exact hent2
      have := eq_value_of_nodup fk.mPath2Resource hInv.keys_nodup _ _ _ hent3 hent
      rw [Option.some.injEq] at this
      exact hi2.1 this
    · intro q hq
      have hq2 := mem_of_mem_eraseA _ _ _ hq
      obtain ⟨i, rd2, hv, hm2, hr2, hrel⟩ := hInv.bwd q hq2
      have hne : i ≠ rd.rid := by
        intro he
        subst he
        rw [hr2] at hheap
        rw [Option.some.injEq] at hheap
        subst hheap
        exact key_ne_of_mem_eraseA _ _ _ hInv.keys_nodup hq hrel.symm
      exact ⟨i, rd2, hv, (hInv.byId_nodup.mem_erase_iff).mpr ⟨hne, hm2⟩, hr2, hrel⟩
  · have hnm : rd.rid ∉ fk.mResources := by
      intro hm
      exact hk (List.mem_map_of_mem Prod.fst (hInv.fwd rd.rid hm rd hheap))
    have e1 : fk.mResources.erase rd.rid = fk.mResources := List.erase_of_not_mem hnm
    have e2 : eraseA (relPathOf fk.mFullPathToMainFolder rd.fullPath) fk.mPath2Resource =
        fk.mPath2Resource := eraseA_not_mem _ _ hk
    refine ⟨hInv.heap_nodup, hInv.heap_lt, ?_, ?_, ?_, ?_, ?_⟩
    · show (fk.mResources.erase rd.rid).Nodup
      rw [e1]
      exact hInv.byId_nodup
    · intro i hi
      exact hInv.byId_res i (List.mem_of_mem_erase hi)
    · show (keysA (eraseA (relPathOf fk.mFullPathToMainFolder rd.fullPath)
        fk.mPath2Resource)).Nodup
      rw [e2]
      exact hInv.keys_nodup
    · intro i hi rd2 hr2
      have hi2 : i ∈ fk.mResources := List.mem_of_mem_erase hi
      show _ ∈ eraseA (relPathOf fk.mFullPathToMainFolder rd.fullPath) fk.mPath2Resource
      rw [e2]
      exact hInv.fwd i hi2 rd2 hr2
    · intro q hq
      have hq2 : q ∈ fk.mPath2Resource := mem_of_mem_eraseA _ _ _ hq
      obtain ⟨i, rd2, hv, hm2, hr2, hrel⟩ := hInv.bwd q hq2
      refine ⟨i, rd2, hv, ?_, hr2, hrel⟩
      show i ∈ fk.mResources.erase rd.rid
      rw [e1]
      exact hm2

theorem inv_rename (fk : FolderKeeper) (i : Nat) (rd : ResData) (newP : Path)
    (hInv : Inv fk) (hres : fk.resOf i = some rd) (hreg : i ∈ fk.mResources)
    (hfresh : relPathOf fk.mFullPathToMainFolder newP ∉ keysA fk.mPath2Resource ∨
      relPathOf fk.mFullPathToMainFolder newP =
        relPathOf fk.mFullPathToMainFolder rd.fullPath) :
    Inv (FolderKeeper.resourceRenamed { fk with heap := heapRename fk.heap i newP }
      { rd with fullPath := newP } rd.fullPath) := by
  have hent : (relPathOf fk.mFullPathToMainFolder rd.fullPath, some i) ∈
      fk.mPath2Resource := hInv.fwd i hreg rd hres
  have hlook : lookupA (relPathOf fk.mFullPathToMainFolder rd.fullPath)
      fk.mPath2Resource = some (some i) :=
    lookupA_mem _ _ _ hInv.keys_nodup hent
  have hmap2 : (FolderKeeper.resourceRenamed { fk with heap := heapRename fk.heap i newP }
      { rd with fullPath := newP } rd.fullPath).mPath2Resource =
      insertA (relPathOf fk.mFullPathToMainFolder newP) (some i)
        (eraseA (relPathOf fk.mFullPathToMainFolder rd.fullPath) fk.mPath2Resource) := by
    show insertA _ ((lookupA (relPathOf fk.mFullPathToMainFolder rd.fullPath)
      fk.mPath2Resource).getD none) _ = _
    rw [hlook]
    rfl
  have hkeyerase : (keysA (eraseA (relPathOf fk.mFullPathToMainFolder rd.fullPath)
      fk.mPath2Resource)).Nodup := by
    rw [keysA_eraseA]
    exact hInv.keys_nodup.erase _
  have hro_self : ∀ x, fk.resOf i = some x →
      (heapRename fk.heap i newP).find? (fun r => r.rid == i) =
        some { x with fullPath := newP } := by
    intro x hx
    exact find?_heapRename_self fk.heap i newP x hx
  refine ⟨?_, ?_, hInv.byId_nodup, ?_, ?_, ?_, ?_⟩
  · show ((heapRename fk.heap i newP).map ResData.rid).Nodup
    rw [map_rid_heapRename]
    exact hInv.heap_nodup
  · intro r hr
    have hr2 : r ∈ heapRename fk.heap i newP := hr
    rw [heapRename] at hr2
    obtain ⟨x, hx, hxe⟩ := List.mem_map.mp hr2
    have hlt := hInv.heap_lt x hx
    show r.rid < fk.ctr
    rw [← hxe]
    split
    · exact hlt
    · exact hlt
  · intro j hj
    by_cases hji : j = i
    · subst hji
      show ((heapRename fk.heap j newP).find? (fun r => r.rid == j)).isSome = true
      rw [hro_self rd hres]
      rfl
    · show ((heapRename fk.heap i newP).find? (fun r => r.rid == j)).isSome = true
      rw [find?_heapRename_ne fk.heap i j newP hji]
      exact hInv.byId_res j hj
  · rw [hmap2]
    exact nodup_keysA_insertA _ _ _ hkeyerase
  · intro j hj rd2 hr2
    rw [hmap2]
    by_cases hji : j = i
    · subst hji
      have hr3 : (heapRename fk.heap j newP).find? (fun r => r.rid == j) =
          some { rd with fullPath := newP } := hro_self rd hres
      have hr4 : rd2 = { rd with fullPath := newP } := by
        have h5 : some rd2 = some { rd with fullPath := newP } := by
          rw [← hr2]
          exact hr3
        exact Option.some.inj h5
      subst hr4
      exact mem_insertA_self _ _ _
    · have hr3 : fk.resOf j = some rd2 := by
        have h4 : (heapRename fk.heap i newP).find? (fun r => r.rid == j) = some rd2 := hr2
        rw [find?_heapRename_ne fk.heap i j newP hji] at h4
        exact h4
      have hent2 := hInv.fwd j hj rd2 hr3
      have hkey_ne_old : relPathOf fk.mFullPathToMainFolder rd2.fullPath ≠
          relPathOf fk.mFullPathToMainFolder rd.fullPath := by
        intro hkey
        have hent3 : (relPathOf fk.mFullPathToMainFolder rd.fullPath, some j) ∈
            fk.mPath2Resource := by
          rw [← hkey]
          exact hent2
        have := eq_value_of_nodup fk.mPath2Resource hInv.keys_nodup _ _ _ hent3 hent
        rw [Option.some.injEq] at this
        exact hji this
      apply mem_insertA_of_ne
      · exact mem_eraseA_of_ne _ _ _ hent2 hkey_ne_old
      · rcases hfresh with hf | hf
        · intro hkey
          exact hf (hkey ▸ List.mem_map_of_mem Prod.fst hent2)
        · rw [hf]
          exact hkey_ne_old
  · intro q hq
    rw [hmap2] at hq
    rcases mem_insertA_elim _ _ _ _ hkeyerase hq with hq1 | hq1
    · subst hq1
      refine ⟨i, { rd with fullPath := newP }, rfl, hreg, ?_, rfl⟩
      exact hro_self rd hres
    · have hq2 := mem_of_mem_eraseA _ _ _ hq1.1
      obtain ⟨j, rd2, hv, hm2, hr2, hrel⟩ := hInv.bwd q hq2
      have hji : j ≠ i := by
        intro he
        subst he
        rw [hr2] at hres
        rw [Option.some.injEq] at hres
        subst hres
        exact key_ne_of_mem_eraseA _ _ _ hInv.keys_nodup hq1.1 hrel.symm
      refine ⟨j, rd2, hv, hm2, ?_, hrel⟩
      show (heapRename fk.heap i newP).find? (fun r => r.rid == j) = some rd2
      rw [find?_heapRename_ne fk.heap i j newP hji]
      exact hr2

/-! ## Characterizing a successful add -/

theorem addContentFile_ok (fk : FolderKeeper) (mtbl : MediaTypes) (disk : List Path)
    (p : Path) (u : Bool) (mime : Path) (hd : p ∈ disk) :
    fk.addContentFileToFolder mtbl disk p u mime = .ok
      ({ fk with
          heap := fk.heap ++ [addedRes fk mtbl p mime],
          mResources := insertId fk.mResources (addedRes fk mtbl p mime).rid,
          mPath2Resource := insertA
            (relPathOf fk.mFullPathToMainFolder (addedRes fk mtbl p mime).fullPath)
            (some (addedRes fk mtbl p mime).rid) fk.mPath2Resource,
          ctr := fk.ctr + 1 }, (addedRes fk mtbl p mime).rid) := by
  rw [FolderKeeper.addContentFileToFolder, if_pos hd]

theorem addContentFile_error (fk : FolderKeeper) (mtbl : MediaTypes) (disk : List Path)
    (p : Path) (u : Bool) (mime : Path) (hd : p ∉ disk) :
    fk.addContentFileToFolder mtbl disk p u mime = .error (.fileDoesNotExist p) := by
  rw [FolderKeeper.addContentFileToFolder, if_neg hd]

theorem addedRes_rid (fk : FolderKeeper) (mtbl : MediaTypes) (p mime : Path) :
    (addedRes fk mtbl p mime).rid = fk.ctr := rfl

theorem addedRes_fullPath_meta (fk : FolderKeeper) (mtbl : MediaTypes) (p mime : Path)
    (h : containsSub ("META-INF".data) p = true) :
    (addedRes fk mtbl p mime).fullPath =
      fk.mFullPathToMainFolder ++
        rightQ p ((p.length : Int) - (fk.mFullPathToMainFolder.length : Int)) := by
  simp [addedRes, h]

theorem addedRes_fullPath_nonmeta (fk : FolderKeeper) (mtbl : MediaTypes) (p mime : Path)
    (h : containsSub ("META-INF".data) p = false) :
    ∃ folder : Path, (addedRes fk mtbl p mime).fullPath =
      (fk.mFullPathToMainFolder ++ '/' :: folder) ++ '/' ::
        getUniqueFilenameVersion fk.getAllFilenames (fileNameOf (normalisedOf p)) := by
  refine ⟨(descPlacement (mtbl.getResourceDescFromMediaType
    (if mime = [] then mtbl.getMediaTypeFromExtension (lower (suffixOf (normalisedOf p))) []
     else mime) ("Resource".data))).folder, ?_⟩
  simp [addedRes, h]

/-- Under the invariant, a destination of the form
`main/folder/<fresh name>` has a book path not yet registered. -/
theorem bookPath_fresh_of_absent (fk : FolderKeeper) (hInv : Inv fk) (folder fn : Path)
    (hfn : '/' ∉ fn) (habs : ciMem fn fk.getAllFilenames = false) :
    relPathOf fk.mFullPathToMainFolder
      ((fk.mFullPathToMainFolder ++ '/' :: folder) ++ '/' :: fn) ∉
      keysA fk.mPath2Resource := by
  have hshape : (fk.mFullPathToMainFolder ++ '/' :: folder) ++ '/' :: fn =
      fk.mFullPathToMainFolder ++ '/' :: (folder ++ '/' :: fn) := by
    simp
  rw [hshape, relPathOf_append]
  intro hm
  obtain ⟨q, hq, hqe⟩ := List.mem_map.mp hm
  obtain ⟨i, rd2, hv, hm2, hr2, hrel⟩ := hInv.bwd q hq
  have hfull : rd2.fullPath =
      (rd2.fullPath.take (rd2.fullPath.length -
        (relPathOf fk.mFullPathToMainFolder rd2.fullPath).length) ++ folder) ++ '/' :: fn := by
    conv_lhs => rw [relPathOf_split fk.mFullPathToMainFolder rd2.fullPath]
    rw [List.append_assoc]
    congr 1
    rw [hrel, hqe]
  have hname : fileNameOf rd2.fullPath = fn := by
    rw [hfull]
    exact fileNameOf_append_slash _ _ hfn
  have hmem := filename_mem_getAllFilenames fk i rd2 hm2 hr2
  rw [hname] at hmem
  rw [ciMem_of_mem fn _ hmem] at habs
  cases habs

/-! ## Legal steps preserve the invariant -/

theorem inv_step_add (mtbl : MediaTypes) (fk : FolderKeeper) (disk : List Path)
    (p mime : Path) (hInv : Inv fk) (hleg : legalOp fk (Op.add disk p mime) = true) :
    Inv (step mtbl fk (Op.add disk p mime)) := by
  by_cases hd : p ∈ disk
  · have hstep : step mtbl fk (Op.add disk p mime) =
        { fk with
          heap := fk.heap ++ [addedRes fk mtbl p mime],
          mResources := insertId fk.mResources (addedRes fk mtbl p mime).rid,
          mPath2Resource := insertA
            (relPathOf fk.mFullPathToMainFolder (addedRes fk mtbl p mime).fullPath)
            (some (addedRes fk mtbl p mime).rid) fk.mPath2Resource,
          ctr := fk.ctr + 1 } := by
      rw [step, addContentFile_ok fk mtbl disk p true mime hd]
    rw [hstep]
    refine inv_insert_fresh fk _ (addedRes fk mtbl p mime) hInv rfl rfl rfl rfl rfl rfl ?_
    by_cases hmeta : containsSub ("META-INF".data) p = true
    · rw [addedRes_fullPath_meta fk mtbl p mime hmeta]
      rw [legalOp, hmeta] at hleg
      simp at hleg
      exact hleg
    · have hmeta2 : containsSub ("META-INF".data) p = false :=
        Bool.eq_false_iff.mpr hmeta
      obtain ⟨folder, hfold⟩ := addedRes_fullPath_nonmeta fk mtbl p mime hmeta2
      rw [hfold]
      exact bookPath_fresh_of_absent fk hInv folder _
        (getUnique_noSlash _ _ (fileNameOf_noSlash _)) (getUnique_absent _ _)
  · have hstep : step mtbl fk (Op.add disk p mime) = fk := by
      rw [step, addContentFile_error fk mtbl disk p true mime hd]
    rw [hstep]
    exact hInv

theorem inv_step_addNCX (fk : FolderKeeper) (hInv : Inv fk)
    (hleg : legalOp fk Op.addNCX = true) : Inv fk.addNCXToFolder := by
  refine inv_insert_fresh fk _
    ({ rid := fk.ctr,
       fullPath := fk.mFullPathToMainFolder ++ "/OEBPS/toc.ncx".data,
       mediaType := "application/x-dtbncx+xml".data,
       lcp := (lookupA ("ncx".data) (keyToLCP fk.mFullPathToMainFolder)).getD [],
       rtype := RType.ncx }) hInv rfl rfl rfl rfl rfl rfl ?_
  rw [legalOp] at hleg
  simp at hleg
  exact hleg

theorem inv_step_remove (mtbl : MediaTypes) (fk : FolderKeeper) (i : Nat) (hInv : Inv fk)
    (hleg : legalOp fk (Op.remove i) = true) : Inv (step mtbl fk (Op.remove i)) := by
  rw [step]
  cases hres : fk.resOf i with
  | none => exact hInv
  | some rd =>
    rw [legalOp, hres] at hleg
    have hrid := resOf_rid fk i rd hres
    apply inv_removeResource fk rd hInv
    · rcases Bool.or_eq_true _ _ |>.mp hleg with h1 | h1
      · left
        rw [hrid]
        simpa using h1
      · right
        simpa using h1
    · rw [hrid]
      exact hres

theorem inv_step_rename (mtbl : MediaTypes) (fk : FolderKeeper) (i : Nat) (newP : Path)
    (hInv : Inv fk) (hleg : legalOp fk (Op.rename i newP) = true) :
    Inv (step mtbl fk (Op.rename i newP)) := by
  rw [step]
  cases hres : fk.resOf i with
  | none => exact hInv
  | some rd =>
    rw [legalOp, hres] at hleg
    rw [Bool.and_eq_true] at hleg
    apply inv_rename fk i rd newP hInv hres
    · have := hleg.1
      simpa using this
    · rcases Bool.or_eq_true _ _ |>.mp hleg.2 with h1 | h1
      · left
        simpa using h1
      · right
        simpa using h1

theorem inv_step (mtbl : MediaTypes) (fk : FolderKeeper) (op : Op) (hInv : Inv fk)
    (hleg : legalOp fk op = true) : Inv (step mtbl fk op) := by
  cases op with
  | add disk p mime => exact inv_step_add mtbl fk disk p mime hInv hleg
  | addNCX => exact inv_step_addNCX fk hInv hleg
  | remove i => exact inv_step_remove mtbl fk i hInv hleg
  | rename i newP => exact inv_step_rename mtbl fk i newP hInv hleg

theorem inv_runOps (mtbl : MediaTypes) (fk : FolderKeeper) (ops : List Op) (hInv : Inv fk)
    (hleg : legalSeq mtbl fk ops = true) : Inv (runOps mtbl fk ops) := by
  induction ops generalizing fk with
  | nil => exact hInv
  | cons op rest ih =>
    rw [legalSeq, Bool.and_eq_true] at hleg
    rw [runOps]
    exact ih (step mtbl fk op) (inv_step mtbl fk op hInv hleg.1) hleg.2

theorem inv_initial (main : Path) : Inv (initialFolderKeeper main) := by
  refine ⟨?_, ?_, ?_, ?_, ?_, ?_, ?_⟩
  · exact List.nodup_singleton _
  · intro rd hr
    have hr2 : rd ∈ [opfResData main] := hr
    rw [List.mem_singleton] at hr2
    subst hr2
    exact Nat.zero_lt_one
  · exact List.nodup_singleton _
  · intro i hi
    have hi2 : i ∈ ([0] : List Nat) := hi
    rw [List.mem_singleton] at hi2
    subst hi2
    rfl
  · exact List.nodup_singleton _
  · intro i hi rd hr
    have hi2 : i ∈ ([0] : List Nat) := hi
    rw [List.mem_singleton] at hi2
    subst hi2
    have hrd : rd = opfResData main := by
      have h2 : (initialFolderKeeper main).resOf 0 = some (opfResData main) := rfl
      rw [h2] at hr
      exact (Option.some.inj hr).symm
    subst hrd
    show _ ∈ [(relPathOf main (opfResData main).fullPath, some 0)]
    exact List.mem_singleton.mpr rfl
  · intro q hq
    have hq2 : q ∈ [(relPathOf main (opfResData main).fullPath, some 0)] := hq
    rw [List.mem_singleton] at hq2
    subst hq2
    exact ⟨0, opfResData main, rfl, List.mem_singleton.mpr rfl, rfl, rfl⟩

/-! ## Further lookup and watcher lemmas -/

theorem lookupA_insertA_self {α : Type} (k : Path) (v : α) (l : List (Path × α)) :
    lookupA k (insertA k v l) = some v := by
  induction l with
  | nil => rw [insertA, lookupA, if_pos rfl]
  | cons q t ih =>
    rw [insertA]
    split
    · rw [lookupA, if_pos rfl]
    · rename_i he
      rw [lookupA, if_neg he]
      exact ih

theorem lookupA_insertA_ne {α : Type} (k k2 : Path) (v : α) (l : List (Path × α))
    (h : k2 ≠ k) : lookupA k2 (insertA k v l) = lookupA k2 l := by
  induction l with
  | nil =>
    show lookupA k2 [(k, v)] = none
    rw [lookupA, if_neg (fun he : k = k2 => h he.symm)]
    rfl
  | cons q t ih =>
    rw [insertA]
    split
    · rename_i he
      rw [lookupA, if_neg (fun h2 : k = k2 => h h2.symm)]
      rw [lookupA, if_neg (fun h2 : q.1 = k2 => h (he.symm.trans h2).symm)]
    · rw [lookupA, lookupA]
      split
      · rfl
      · exact ih

theorem lookupA_eraseA_self {α : Type} (k : Path) (l : List (Path × α))
    (hnd : (keysA l).Nodup) : lookupA k (eraseA k l) = none := by
  apply lookupA_eq_none
  rw [keysA_eraseA]
  intro hm
  exact ((hnd.mem_erase_iff).mp hm).1 rfl

theorem mem_addPath_of_mem (w : List Path) (q p : Path) (h : p ∈ w) : p ∈ addPath w q := by
  rw [addPath]
  split
  · exact h
  · exact List.mem_append_left _ h

theorem mem_addPath_self (w : List Path) (p : Path) : p ∈ addPath w p := by
  rw [addPath]
  split
  · assumption
  · exact List.mem_append_right _ (List.mem_singleton.mpr rfl)

theorem mem_addPath_elim (w : List Path) (q p : Path) (h : p ∈ addPath w q) :
    p ∈ w ∨ p = q := by
  rw [addPath] at h
  split at h
  · exact Or.inl h
  · rcases List.mem_append.mp h with h1 | h1
    · exact Or.inl h1
    · exact Or.inr (List.mem_singleton.mp h1)

theorem mem_foldl_addPath_base (l : List Path) (disk : List Path) (w : List Path) (p : Path)
    (hp : p ∈ w) :
    p ∈ l.foldl (fun acc q => if q ∈ disk then addPath acc q else acc) w := by
  induction l generalizing w with
  | nil => exact hp
  | cons q t ih =>
    rw [List.foldl_cons]
    apply ih
    split
    · exact mem_addPath_of_mem w q p hp
    · exact hp

theorem mem_foldl_addPath_added (l : List Path) (disk : List Path) (w : List Path) (p : Path)
    (hp : p ∈ l) (hd : p ∈ disk) :
    p ∈ l.foldl (fun acc q => if q ∈ disk then addPath acc q else acc) w := by
  induction l generalizing w with
  | nil => cases hp
  | cons q t ih =>
    rw [List.foldl_cons]
    rcases List.mem_cons.mp hp with rfl | h2
    · apply mem_foldl_addPath_base
      rw [if_pos hd]
      exact mem_addPath_self w p
    · exact ih _ h2

theorem mem_foldl_addPath_elim (l : List Path) (disk : List Path) (w : List Path) (p : Path)
    (h : p ∈ l.foldl (fun acc q => if q ∈ disk then addPath acc q else acc) w) :
    p ∈ w ∨ (p ∈ l ∧ p ∈ disk) := by
  induction l generalizing w with
  | nil => exact Or.inl h
  | cons q t ih =>
    rw [List.foldl_cons] at h
    rcases ih _ h with h1 | h1
    · split at h1
      · rcases mem_addPath_elim w q p h1 with h2 | h2
        · exact Or.inl h2
        · subst h2
          rename_i hd
          exact Or.inr ⟨List.mem_cons_self _ _, hd⟩
      · exact Or.inl h1
    · exact Or.inr ⟨List.mem_cons_of_mem _ h1.1, h1.2⟩

/-! ## Counting HTML resources -/

theorem countHTML_foldl_init (l : List ResData) (c : Int) :
    l.foldl (fun n rd => if rd.rtype = RType.html then n + 1 else n) c =
      c + l.foldl (fun n rd => if rd.rtype = RType.html then n + 1 else n) 0 := by
  induction l generalizing c with
  | nil => simp
  | cons x t ih =>
    rw [List.foldl_cons, List.foldl_cons]
    by_cases hx : x.rtype = RType.html
    · rw [if_pos hx, if_pos hx]
      rw [ih (c + 1), ih ((0 : Int) + 1)]
      omega
    · rw [if_neg hx, if_neg hx]
      exact ih c

theorem countHTML_foldl_append (l : List ResData) (rd : ResData) (c : Int) :
    (l ++ [rd]).foldl (fun n r => if r.rtype = RType.html then n + 1 else n) c =
      (if rd.rtype = RType.html
        then l.foldl (fun n r => if r.rtype = RType.html then n + 1 else n) c + 1
        else l.foldl (fun n r => if r.rtype = RType.html then n + 1 else n) c) := by
  rw [List.foldl_append, List.foldl_cons, List.foldl_nil]

theorem countHTML_foldl_none (l : List ResData) (h : ∀ rd ∈ l, rd.rtype ≠ RType.html) :
    l.foldl (fun n rd => if rd.rtype = RType.html then n + 1 else n) (0 : Int) = 0 := by
  induction l with
  | nil => rfl
  | cons x t ih =>
    rw [List.foldl_cons, if_neg (h x (List.mem_cons_self x t))]
    exact ih (fun rd hr => h rd (List.mem_cons_of_mem x hr))

/-- After a successful add, the registered resource list gains exactly the
new resource. -/
theorem resources_after_add (fk : FolderKeeper) (mtbl : MediaTypes) (p mime : Path)
    (hInv : Inv fk) :
    ({ fk with
        heap := fk.heap ++ [addedRes fk mtbl p mime],
        mResources := insertId fk.mResources (addedRes fk mtbl p mime).rid,
        mPath2Resource := insertA
          (relPathOf fk.mFullPathToMainFolder (addedRes fk mtbl p mime).fullPath)
          (some (addedRes fk mtbl p mime).rid) fk.mPath2Resource,
        ctr := fk.ctr + 1 } : FolderKeeper).resources =
      fk.resources ++ [addedRes fk mtbl p mime] := by
  set rd := addedRes fk mtbl p mime with hrd
  have hnew : ∀ r ∈ fk.heap, r.rid ≠ rd.rid := by
    intro r hr he
    have h1 := hInv.heap_lt r hr
    rw [he, hrd, addedRes_rid] at h1
    omega
  have hnotmem : rd.rid ∉ fk.mResources := by
    intro hm
    obtain ⟨x, hx⟩ := Option.isSome_iff_exists.mp (hInv.byId_res rd.rid hm)
    exact hnew x (resOf_mem_heap fk rd.rid x hx) (resOf_rid fk rd.rid x hx)
  show (insertId fk.mResources rd.rid).filterMap
      (fun i => (fk.heap ++ [rd]).find? (fun r => r.rid == i)) = _
  rw [insertId, if_neg hnotmem, List.filterMap_append]
  congr 1
  · rw [FolderKeeper.resources]
    apply List.filterMap_congr
    intro i hi
    obtain ⟨x, hx⟩ := Option.isSome_iff_exists.mp (hInv.byId_res i hi)
    rw [find?_rid_append_old fk.heap [rd] i x hx]
    exact hx.symm
  · rw [List.filterMap_cons]
    rw [find?_rid_append_new fk.heap rd rd.rid hnew rfl]
    rfl
/-- Unknown extension and unknown hint drive the fallback branch: a
generic resource placed in OEBPS/Misc. -/
theorem addedRes_fallback (fk : FolderKeeper) (mtbl : MediaTypes) (p mime : Path)
    (hmeta : containsSub ("META-INF".data) p = false)
    (hext : lookupA (lower (suffixOf (normalisedOf p))) mtbl.extToMediaType = none)
    (hhint : lookupA mime mtbl.mediaTypeToDesc = none)
    (hempty : lookupA [] mtbl.mediaTypeToDesc = none) :
    (addedRes fk mtbl p mime).rtype = RType.generic ∧
    (addedRes fk mtbl p mime).fullPath =
      (fk.mFullPathToMainFolder ++ '/' :: "OEBPS/Misc".data) ++ '/' ::
        getUniqueFilenameVersion fk.getAllFilenames (fileNameOf (normalisedOf p)) := by
  have hdesc : mtbl.getResourceDescFromMediaType
      (if mime = [] then mtbl.getMediaTypeFromExtension (lower (suffixOf (normalisedOf p))) []
       else mime) ("Resource".data) = "Resource".data := by
    by_cases hm : mime = []
    · rw [if_pos hm, MediaTypes.getMediaTypeFromExtension, hext, Option.getD_none,
        MediaTypes.getResourceDescFromMediaType, hempty, Option.getD_none]
    · rw [if_neg hm, MediaTypes.getResourceDescFromMediaType, hhint, Option.getD_none]
  have hpl : descPlacement ("Resource".data) =
      ⟨"OEBPS/Misc".data, RType.generic, true⟩ := by decide
  constructor
  · simp [addedRes, hmeta, hdesc, hpl]
  · simp [addedRes, hmeta, hdesc, hpl]

/-- After removing a registered resource, its filename is no longer among
the registered filenames (case-insensitively), given pairwise-distinct
filenames. -/
theorem filenames_remove_absent (fk : FolderKeeper) (i : Nat) (rd : ResData)
    (hU : UniqNames fk) (hreg : i ∈ fk.mResources)
    (hres : fk.resOf i = some rd) :
    ciMem (fileNameOf rd.fullPath) ((fk.removeResource rd).getAllFilenames) = false := by
  have hrid : rd.rid = i := resOf_rid fk i rd hres
  have hmem : rd.rid ∈ fk.mResources := by
    rw [hrid]
    exact hreg
  obtain ⟨l1, l2, hnot1, hsplit, herase⟩ := List.exists_erase_eq hmem
  have hresrid : fk.resOf rd.rid = some rd := by
    rw [hrid]
    exact hres
  rw [ciMem, List.any_eq_false]
  intro g hg
  intro hc
  have hg2 : g ∈ ((l1 ++ l2).filterMap fk.resOf).map
      (fun sd => fileNameOf sd.fullPath) := by
    have he : (fk.removeResource rd).getAllFilenames =
        ((fk.mResources.erase rd.rid).filterMap fk.resOf).map
          (fun sd => fileNameOf sd.fullPath) := rfl
    rw [he, herase] at hg
    exact hg
  have hU2 : ((l1.filterMap fk.resOf).map (fun sd => fileNameOf sd.fullPath) ++
      fileNameOf rd.fullPath ::
        (l2.filterMap fk.resOf).map (fun sd => fileNameOf sd.fullPath)).Pairwise
      (fun a b => ciEq a b = false) := by
    have he : fk.getAllFilenames =
        (l1.filterMap fk.resOf).map (fun sd => fileNameOf sd.fullPath) ++
          fileNameOf rd.fullPath ::
            (l2.filterMap fk.resOf).map (fun sd => fileNameOf sd.fullPath) := by
      show (fk.mResources.filterMap fk.resOf).map (fun sd => fileNameOf sd.fullPath) = _
      rw [hsplit, List.filterMap_append, List.filterMap_cons, hresrid, List.map_append,
        List.map_cons]
    rw [UniqNames, he] at hU
    exact hU
  rw [List.pairwise_append] at hU2
  rw [List.filterMap_append, List.map_append] at hg2
  rcases List.mem_append.mp hg2 with h1 | h1
  · have := hU2.2.2 g h1 (fileNameOf rd.fullPath) (List.mem_cons_self _ _)
    rw [hc] at this
    cases this
  · have := (List.pairwise_cons.mp hU2.2.1).1 g h1
    have h2 := ciEq_symm_false _ _ this
    rw [hc] at h2
    cases h2

/-- The newly added resource dereferences to itself in the post-add state. -/
theorem resOf_after_add (fk : FolderKeeper) (mtbl : MediaTypes) (p mime : Path)
    (hInv : Inv fk) :
    ({ fk with
        heap := fk.heap ++ [addedRes fk mtbl p mime],
        mResources := insertId fk.mResources (addedRes fk mtbl p mime).rid,
        mPath2Resource := insertA
          (relPathOf fk.mFullPathToMainFolder (addedRes fk mtbl p mime).fullPath)
          (some (addedRes fk mtbl p mime).rid) fk.mPath2Resource,
        ctr := fk.ctr + 1 } : FolderKeeper).resOf (addedRes fk mtbl p mime).rid =
      some (addedRes fk mtbl p mime) := by
  have hnew : ∀ r ∈ fk.heap, r.rid ≠ (addedRes fk mtbl p mime).rid := by
    intro r hr he
    have h1 := hInv.heap_lt r hr
    rw [he, addedRes_rid] at h1
    omega
  show (fk.heap ++ [addedRes fk mtbl p mime]).find?
      (fun r => r.rid == (addedRes fk mtbl p mime).rid) = _
  exact find?_rid_append_new _ _ _ hnew rfl

/-! ## The claims -/

/-- C1 (amended): starting from the freshly constructed registry, every
sequence of addContentFile / addNavigationResource / removeResource /
resourceRenamed operations whose steps satisfy the `legalOp`
preconditions (META-INF adds stage a fresh book path; the NCX is added
only while unregistered; removal hits a registered resource or one whose
book path is unoccupied; renames move a registered resource to a fresh
book path or its own) keeps the two indices in bijection: each
registered identifier has exactly one `m_Path2Resource` entry keyed by
its current book path, and every entry belongs to a registered resource
(invariant `Inv`). -/
theorem claim_C1 (main : Path) (mtbl : MediaTypes) (ops : List Op)
    (hleg : legalSeq mtbl (initialFolderKeeper main) ops = true) :
    Inv (runOps mtbl (initialFolderKeeper main) ops) :=
  inv_runOps mtbl _ ops (inv_initial main) hleg

theorem claim_C1_witness :
    legalSeq mtbl0 (initialFolderKeeper cMain) [wAddOp, Op.addNCX] = true ∧
    Inv (runOps mtbl0 (initialFolderKeeper cMain) [wAddOp, Op.addNCX]) :=
  ⟨by decide, claim_C1 cMain mtbl0 [wAddOp, Op.addNCX] (by decide)⟩

/-- C1 counterexample: adding the same existing META-INF file twice (a
sequence of two addContentFile operations) yields a state in which
identifier 1 is present in `m_Resources` while no `m_Path2Resource`
entry points to it: the two indices hold different sets of live
resources, refuting the unqualified claim. -/
theorem claim_C1_cex :
    ((1 : Nat) ∈ c1state.mResources ∧ c1state.resOf 1 = some c1orphan ∧
      ∀ q ∈ c1state.mPath2Resource, q.2 ≠ some 1) ∧ ¬ Inv c1state := by
  refine ⟨⟨by decide, by decide, by decide⟩, ?_⟩
  intro h
  have h2 := h.fwd 1 (by decide) c1orphan (by decide)
  exact absurd h2 (by decide)

/-- C2: the unique-name allocator returns a name absent (under
case-insensitive comparison) from the existing names, and returns the
desired name unchanged when it does not collide. -/
theorem claim_C2 (existingNames : List Path) (desiredName : Path) :
    ciMem (getUniqueFilenameVersion existingNames desiredName) existingNames = false ∧
    (ciMem desiredName existingNames = false →
      getUniqueFilenameVersion existingNames desiredName = desiredName) := by
  refine ⟨getUnique_absent existingNames desiredName, ?_⟩
  intro h
  rw [getUniqueFilenameVersion, if_pos h]

theorem claim_C2_witness :
    ciMem ("cover.jpg".data) ["Section0001.xhtml".data] = false ∧
    ciMem (getUniqueFilenameVersion ["Section0001.xhtml".data] ("cover.jpg".data))
      ["Section0001.xhtml".data] = false ∧
    getUniqueFilenameVersion ["Section0001.xhtml".data] ("cover.jpg".data) =
      "cover.jpg".data :=
  ⟨by decide, (claim_C2 ["Section0001.xhtml".data] ("cover.jpg".data)).1,
    (claim_C2 ["Section0001.xhtml".data] ("cover.jpg".data)).2 (by decide)⟩

/-- C3 (amended): on a collision the allocator follows the spec's scheme
(strip the trailing digit run, scan for `^prefix(\d*)\.extension$`
matches, take the maximum suffix and the width of its capture,
defaulting to 0 and 4, then append max+1 zero-padded) — it coincides
with the spec-side `allocateSpec` — provided every captured suffix value
among the existing names is within 32-bit `int` range, and the spec's
two worked examples hold.  Out of that range `QString::toInt` fails and
the scan skips the name (`claim_C3_cex`). -/
theorem claim_C3 :
    (∀ existingNames desiredName,
      (∀ vw ∈ specMatches (removeTrailingDigits (baseNameOf desiredName))
          (completeSuffixOf desiredName) existingNames, vw.1 ≤ 2147483647) →
      getUniqueFilenameVersionQ existingNames desiredName =
        allocateSpec existingNames desiredName) ∧
    getUniqueFilenameVersionQ ["Section0001.xhtml".data, "Section0099.xhtml".data]
      ("Section0001.xhtml".data) = "Section0100.xhtml".data ∧
    getUniqueFilenameVersionQ ["chapter.xhtml".data] ("chapter.xhtml".data) =
      "chapter0001.xhtml".data := by
  refine ⟨?_, by decide, by decide⟩
  intro existingNames desiredName h
  rw [getUniqueQ_eq existingNames desiredName h]
  exact getUnique_eq_allocateSpec existingNames desiredName

/-- C3, counterexample to the unrestricted claim: an existing name whose
captured suffix value exceeds `int` range fails `QString::toInt`
(line 281) and is skipped by the scan, so no numeric match remains and
the program falls back to the width-4 default, while the spec's scheme
takes it as the maximum and prescribes max+1. -/
theorem claim_C3_cex :
    getUniqueFilenameVersionQ ["a.x".data, "a9999999999.x".data] ("a.x".data) =
      "a0001.x".data ∧
    allocateSpec ["a.x".data, "a9999999999.x".data] ("a.x".data) =
      "a10000000000.x".data := by
  decide

/-- C4: addContentFileToFolder throws FileDoesNotExist exactly when the
source path does not exist on disk, and a throwing call leaves the
registry state unchanged. -/
theorem claim_C4 (fk : FolderKeeper) (mtbl : MediaTypes) (disk : List Path)
    (p : Path) (u : Bool) (mime : Path) :
    (isOkE (fk.addContentFileToFolder mtbl disk p u mime) = true ↔ p ∈ disk) ∧
    (p ∉ disk →
      fk.addContentFileToFolder mtbl disk p u mime = .error (.fileDoesNotExist p) ∧
      step mtbl fk (Op.add disk p mime) = fk) := by
  constructor
  · constructor
    · intro h
      by_contra hd
      rw [addContentFile_error fk mtbl disk p u mime hd] at h
      simp [isOkE] at h
    · intro hd
      rw [addContentFile_ok fk mtbl disk p u mime hd]
      rfl
  · intro hd
    refine ⟨addContentFile_error fk mtbl disk p u mime hd, ?_⟩
    rw [step, addContentFile_error fk mtbl disk p true mime hd]

theorem claim_C4_witness :
    cMetaP ∉ ([] : List Path) ∧
    (initialFolderKeeper cMain).addContentFileToFolder mtbl0 [] cMetaP true [] =
      .error (.fileDoesNotExist cMetaP) ∧
    step mtbl0 (initialFolderKeeper cMain) (Op.add [] cMetaP []) =
      initialFolderKeeper cMain :=
  ⟨by decide,
    ((claim_C4 (initialFolderKeeper cMain) mtbl0 [] cMetaP true []).2 (by decide)).1,
    ((claim_C4 (initialFolderKeeper cMain) mtbl0 [] cMetaP true []).2 (by decide)).2⟩

/-- C5 (amended): for an existing source file outside META-INF whose
extension and media-type hint are unknown to the classification table,
addContentFileToFolder still succeeds and registers a generic resource
whose destination is the OEBPS/Misc subfolder; in general every add that
passes the existence check registers a resource in both indices. -/
theorem claim_C5 (fk : FolderKeeper) (mtbl : MediaTypes) (disk : List Path)
    (p mime : Path) (u : Bool) (hInv : Inv fk) (hd : p ∈ disk)
    (hmeta : containsSub ("META-INF".data) p = false)
    (hext : lookupA (lower (suffixOf (normalisedOf p))) mtbl.extToMediaType = none)
    (hhint : lookupA mime mtbl.mediaTypeToDesc = none)
    (hempty : lookupA [] mtbl.mediaTypeToDesc = none) :
    ∃ fk2 rid rd,
      fk.addContentFileToFolder mtbl disk p u mime = .ok (fk2, rid) ∧
      fk2.resOf rid = some rd ∧
      rd.rtype = RType.generic ∧
      rd.fullPath = (fk.mFullPathToMainFolder ++ '/' :: "OEBPS/Misc".data) ++ '/' ::
        getUniqueFilenameVersion fk.getAllFilenames (fileNameOf (normalisedOf p)) ∧
      rid ∈ fk2.mResources ∧
      (relPathOf fk.mFullPathToMainFolder rd.fullPath, some rid) ∈ fk2.mPath2Resource := by
  obtain ⟨hty, hfp⟩ := addedRes_fallback fk mtbl p mime hmeta hext hhint hempty
  refine ⟨_, (addedRes fk mtbl p mime).rid, addedRes fk mtbl p mime,
    addContentFile_ok fk mtbl disk p u mime hd,
    resOf_after_add fk mtbl p mime hInv, hty, hfp, ?_, ?_⟩
  · show (addedRes fk mtbl p mime).rid ∈ insertId fk.mResources (addedRes fk mtbl p mime).rid
    rw [insertId]
    split
    · assumption
    · exact List.mem_append_right _ (List.mem_singleton.mpr rfl)
  · exact mem_insertA_self _ _ _

theorem claim_C5_witness :
    ∃ fk2 rid rd,
      (initialFolderKeeper cMain).addContentFileToFolder mtbl0 [wAddP] wAddP true [] =
        .ok (fk2, rid) ∧
      fk2.resOf rid = some rd ∧
      rd.rtype = RType.generic ∧
      rd.fullPath = (cMain ++ '/' :: "OEBPS/Misc".data) ++ '/' ::
        getUniqueFilenameVersion (initialFolderKeeper cMain).getAllFilenames
          (fileNameOf (normalisedOf wAddP)) ∧
      rid ∈ fk2.mResources ∧
      (relPathOf cMain rd.fullPath, some rid) ∈ fk2.mPath2Resource :=
  claim_C5 (initialFolderKeeper cMain) mtbl0 [wAddP] wAddP [] true (inv_initial cMain)
    (by decide) (by decide) (by decide) (by decide) (by decide)

/-- C5 counterexample: an existing META-INF file with an extension the
table does not know is registered as a generic resource, but its
destination is the equivalent META-INF location, not the miscellaneous
subfolder, refuting the claim as stated. -/
theorem claim_C5_cex :
    lookupA ("zzz".data) mtbl0.extToMediaType = none ∧
    isOkE c5res = true ∧
    c5rtype = some RType.generic ∧
    c5book = "META-INF/x.zzz".data ∧
    isPrefixL ("OEBPS/Misc".data) c5book = false := by
  refine ⟨rfl, by decide, by decide, by decide, by decide⟩

/-- C6: getHighestReadingOrder equals the number of registered
content-document (HTML) resources minus one: it is −1 on the freshly
constructed registry (which already holds the OPF) and, more generally,
whenever no HTML resource is registered, and each successful add
increments it exactly when the added resource is an HTML resource —
hence k−1 after k content-document adds interleaved with other kinds. -/
theorem claim_C6 :
    (∀ main, (initialFolderKeeper main).getHighestReadingOrder = -1) ∧
    (∀ fk : FolderKeeper, (∀ rd ∈ fk.resources, rd.rtype ≠ RType.html) →
      fk.getHighestReadingOrder = -1) ∧
    (∀ (fk fk2 : FolderKeeper) (mtbl : MediaTypes) (disk : List Path) (p mime : Path)
      (u : Bool) (rid : Nat) (rd : ResData), Inv fk →
      fk.addContentFileToFolder mtbl disk p u mime = .ok (fk2, rid) →
      fk2.resOf rid = some rd →
      fk2.getHighestReadingOrder =
        (if rd.rtype = RType.html then fk.getHighestReadingOrder + 1
         else fk.getHighestReadingOrder)) := by
  refine ⟨?_, ?_, ?_⟩
  · intro main
    rfl
  · intro fk h
    rw [FolderKeeper.getHighestReadingOrder, countHTML_foldl_none fk.resources h]
    decide
  · intro fk fk2 mtbl disk p mime u rid rd hInv hok hres
    by_cases hd : p ∈ disk
    · rw [addContentFile_ok fk mtbl disk p u mime hd] at hok
      injection hok with hpair
      obtain ⟨hfk2, hrid⟩ := Prod.mk.injEq _ _ _ _ |>.mp hpair
      subst hfk2
      subst hrid
      rw [resOf_after_add fk mtbl p mime hInv] at hres
      have hrd : rd = addedRes fk mtbl p mime := (Option.some.inj hres).symm
      subst hrd
      rw [FolderKeeper.getHighestReadingOrder,
        resources_after_add fk mtbl p mime hInv, countHTML_foldl_append,
        FolderKeeper.getHighestReadingOrder]
      split
      · omega
      · omega
    · rw [addContentFile_error fk mtbl disk p u mime hd] at hok
      exact Except.noConfusion hok

theorem claim_C6_witness :
    (initialFolderKeeper cMain).addContentFileToFolder mtbl0 [wAddP] wAddP true [] =
      .ok (wAddFk2, 1) ∧
    wAddFk2.resOf 1 = some wAddRd ∧
    wAddFk2.getHighestReadingOrder =
      (if wAddRd.rtype = RType.html
        then (initialFolderKeeper cMain).getHighestReadingOrder + 1
        else (initialFolderKeeper cMain).getHighestReadingOrder) :=
  ⟨rfl, rfl,
    claim_C6.2.2 (initialFolderKeeper cMain) wAddFk2 mtbl0 [wAddP] wAddP [] true 1 wAddRd
      (inv_initial cMain) rfl rfl⟩

/-- C7: after removeResource on a registered resource (in a state
satisfying the index invariant with pairwise-distinct filenames), lookup
by its identifier reports null, lookup by its book path throws
ResourceDoesNotExist, its filename is gone from the registered filenames
(so the allocator returns it unchanged again), and a second
removeResource on the same resource leaves both indices unchanged. -/
theorem claim_C7 (fk : FolderKeeper) (i : Nat) (rd : ResData)
    (hInv : Inv fk) (hU : UniqNames fk) (hreg : i ∈ fk.mResources)
    (hres : fk.resOf i = some rd) :
    (fk.removeResource rd).getResourceByIdentifier i = none ∧
    (fk.removeResource rd).getResourceByBookPath
        (relPathOf fk.mFullPathToMainFolder rd.fullPath) =
      .error (.resourceDoesNotExist (relPathOf fk.mFullPathToMainFolder rd.fullPath)) ∧
    ciMem (fileNameOf rd.fullPath) ((fk.removeResource rd).getAllFilenames) = false ∧
    getUniqueFilenameVersion ((fk.removeResource rd).getAllFilenames)
        (fileNameOf rd.fullPath) = fileNameOf rd.fullPath ∧
    ((fk.removeResource rd).removeResource rd).mResources =
      (fk.removeResource rd).mResources ∧
    ((fk.removeResource rd).removeResource rd).mPath2Resource =
      (fk.removeResource rd).mPath2Resource := by
  have hrid : rd.rid = i := resOf_rid fk i rd hres
  have habs := filenames_remove_absent fk i rd hU hreg hres
  refine ⟨?_, ?_, habs, ?_, ?_, ?_⟩
  · rw [FolderKeeper.getResourceByIdentifier, if_neg]
    intro hmem
    have hmem2 : i ∈ fk.mResources.erase rd.rid := hmem
    exact ((hInv.byId_nodup.mem_erase_iff).mp hmem2).1 hrid.symm
  · rw [FolderKeeper.getResourceByBookPath]
    have hl : lookupA (relPathOf fk.mFullPathToMainFolder rd.fullPath)
        (fk.removeResource rd).mPath2Resource = none := by
      show lookupA _ (eraseA (relPathOf fk.mFullPathToMainFolder rd.fullPath)
        fk.mPath2Resource) = none
      exact lookupA_eraseA_self _ _ hInv.keys_nodup
    rw [hl]
    rfl
  · rw [getUniqueFilenameVersion, if_pos habs]
  · show (fk.mResources.erase rd.rid).erase rd.rid = fk.mResources.erase rd.rid
    apply List.erase_of_not_mem
    intro hm
    exact ((hInv.byId_nodup.mem_erase_iff).mp hm).1 rfl
  · show eraseA _ (eraseA (relPathOf fk.mFullPathToMainFolder rd.fullPath)
      fk.mPath2Resource) = eraseA (relPathOf fk.mFullPathToMainFolder rd.fullPath)
      fk.mPath2Resource
    apply eraseA_not_mem
    rw [keysA_eraseA]
    intro hm
    exact ((hInv.keys_nodup.mem_erase_iff).mp hm).1 rfl

theorem claim_C7_witness :
    ((initialFolderKeeper cMain).removeResource (opfResData cMain)).getResourceByIdentifier
      0 = none ∧
    ((initialFolderKeeper cMain).removeResource
        (opfResData cMain)).getResourceByBookPath
        (relPathOf cMain (opfResData cMain).fullPath) =
      .error (.resourceDoesNotExist (relPathOf cMain (opfResData cMain).fullPath)) ∧
    ciMem (fileNameOf (opfResData cMain).fullPath)
      (((initialFolderKeeper cMain).removeResource (opfResData cMain)).getAllFilenames) =
      false :=
  ⟨(claim_C7 (initialFolderKeeper cMain) 0 (opfResData cMain) (inv_initial cMain)
      (by unfold UniqNames; decide) (by decide) (by decide)).1,
   (claim_C7 (initialFolderKeeper cMain) 0 (opfResData cMain) (inv_initial cMain)
      (by unfold UniqNames; decide) (by decide) (by decide)).2.1,
   (claim_C7 (initialFolderKeeper cMain) 0 (opfResData cMain) (inv_initial cMain)
      (by unfold UniqNames; decide) (by decide) (by decide)).2.2.1⟩

/-- C8: renaming a registered resource (full path changed so that the
book path changes) re-keys m_Path2Resource: lookup under the old book
path then throws, lookup under the new book path returns the resource,
and the resource has exactly one entry left (keyed by the new path). -/
theorem claim_C8 (fk : FolderKeeper) (i : Nat) (rd : ResData) (newP : Path)
    (hInv : Inv fk) (hreg : i ∈ fk.mResources) (hres : fk.resOf i = some rd)
    (hne : relPathOf fk.mFullPathToMainFolder newP ≠
      relPathOf fk.mFullPathToMainFolder rd.fullPath) :
    (FolderKeeper.resourceRenamed { fk with heap := heapRename fk.heap i newP }
        { rd with fullPath := newP } rd.fullPath).getResourceByBookPath
        (relPathOf fk.mFullPathToMainFolder rd.fullPath) =
      .error (.resourceDoesNotExist (relPathOf fk.mFullPathToMainFolder rd.fullPath)) ∧
    (FolderKeeper.resourceRenamed { fk with heap := heapRename fk.heap i newP }
        { rd with fullPath := newP } rd.fullPath).getResourceByBookPath
        (relPathOf fk.mFullPathToMainFolder newP) = .ok i ∧
    (∀ q ∈ (FolderKeeper.resourceRenamed { fk with heap := heapRename fk.heap i newP }
        { rd with fullPath := newP } rd.fullPath).mPath2Resource,
      q.2 = some i → q.1 = relPathOf fk.mFullPathToMainFolder newP) := by
  have hent := hInv.fwd i hreg rd hres
  have hlook : lookupA (relPathOf fk.mFullPathToMainFolder rd.fullPath)
      fk.mPath2Resource = some (some i) :=
    lookupA_mem _ _ _ hInv.keys_nodup hent
  have hmap2 : (FolderKeeper.resourceRenamed { fk with heap := heapRename fk.heap i newP }
      { rd with fullPath := newP } rd.fullPath).mPath2Resource =
      insertA (relPathOf fk.mFullPathToMainFolder newP) (some i)
        (eraseA (relPathOf fk.mFullPathToMainFolder rd.fullPath) fk.mPath2Resource) := by
    show insertA _ ((lookupA (relPathOf fk.mFullPathToMainFolder rd.fullPath)
      fk.mPath2Resource).getD none) _ = _
    rw [hlook]
    rfl
  have hkeyerase : (keysA (eraseA (relPathOf fk.mFullPathToMainFolder rd.fullPath)
      fk.mPath2Resource)).Nodup := by
    rw [keysA_eraseA]
    exact hInv.keys_nodup.erase _
  refine ⟨?_, ?_, ?_⟩
  · rw [FolderKeeper.getResourceByBookPath]
    have hl : lookupA (relPathOf fk.mFullPathToMainFolder rd.fullPath)
        (FolderKeeper.resourceRenamed { fk with heap := heapRename fk.heap i newP }
          { rd with fullPath := newP } rd.fullPath).mPath2Resource = none := by
      rw [hmap2, lookupA_insertA_ne _ _ _ _ (fun he => hne he.symm)]
      exact lookupA_eraseA_self _ _ hInv.keys_nodup
    rw [hl]
    rfl
  · rw [FolderKeeper.getResourceByBookPath]
    have hl2 : lookupA (relPathOf fk.mFullPathToMainFolder newP)
        (FolderKeeper.resourceRenamed { fk with heap := heapRename fk.heap i newP }
          { rd with fullPath := newP } rd.fullPath).mPath2Resource = some (some i) := by
      rw [hmap2]
      exact lookupA_insertA_self _ _ _
    rw [hl2]
    rfl
  · intro q hq hv
    rw [hmap2] at hq
    rcases mem_insertA_elim _ _ _ _ hkeyerase hq with hq1 | hq1
    · rw [hq1]
    · exfalso
      have hq2 := mem_of_mem_eraseA _ _ _ hq1.1
      obtain ⟨j, rd2, hv2, hm2, hr2, hrel⟩ := hInv.bwd q hq2
      have hji : j = i := Option.some.inj (hv2.symm.trans hv)
      subst hji
      rw [hr2] at hres
      have hrd2 : rd2 = rd := Option.some.inj hres
      subst hrd2
      exact key_ne_of_mem_eraseA _ _ _ hInv.keys_nodup hq1.1 hrel.symm

theorem claim_C8_witness :
    (FolderKeeper.resourceRenamed
        { initialFolderKeeper cMain with
          heap := heapRename (initialFolderKeeper cMain).heap 0 wRenP }
        { opfResData cMain with fullPath := wRenP }
        (opfResData cMain).fullPath).getResourceByBookPath
      (relPathOf cMain (opfResData cMain).fullPath) =
      .error (.resourceDoesNotExist (relPathOf cMain (opfResData cMain).fullPath)) ∧
    (FolderKeeper.resourceRenamed
        { initialFolderKeeper cMain with
          heap := heapRename (initialFolderKeeper cMain).heap 0 wRenP }
        { opfResData cMain with fullPath := wRenP }
        (opfResData cMain).fullPath).getResourceByBookPath
      (relPathOf cMain wRenP) = .ok 0 :=
  ⟨(claim_C8 (initialFolderKeeper cMain) 0 (opfResData cMain) wRenP (inv_initial cMain)
      (by decide) (by decide) (by decide)).1,
   (claim_C8 (initialFolderKeeper cMain) 0 (opfResData cMain) wRenP (inv_initial cMain)
      (by decide) (by decide) (by decide)).2.1⟩

/-- C9: suspendWatchingResources captures the watch set into the
suspended list and clears the watch set, but only when nothing is
already suspended (a second suspend changes nothing);
resumeWatchingResources is a no-op when nothing is suspended, and
otherwise re-adds exactly the suspended paths that exist on disk and
clears the suspended list. -/
theorem claim_C9 (fk : FolderKeeper) (disk : List Path) :
    (fk.mSuspendedWatchedFiles ≠ [] → fk.suspendWatchingResources = fk) ∧
    (fk.mSuspendedWatchedFiles = [] →
      (fk.suspendWatchingResources).mSuspendedWatchedFiles = fk.mFSWatcherFiles ∧
      (fk.suspendWatchingResources).mFSWatcherFiles = []) ∧
    (fk.mSuspendedWatchedFiles = [] → fk.resumeWatchingResources disk = fk) ∧
    (fk.mSuspendedWatchedFiles ≠ [] →
      (fk.resumeWatchingResources disk).mSuspendedWatchedFiles = [] ∧
      (∀ q ∈ fk.mSuspendedWatchedFiles, q ∈ disk →
        q ∈ (fk.resumeWatchingResources disk).mFSWatcherFiles) ∧
      (∀ q, q ∈ (fk.resumeWatchingResources disk).mFSWatcherFiles →
        q ∈ fk.mFSWatcherFiles ∨ (q ∈ fk.mSuspendedWatchedFiles ∧ q ∈ disk))) := by
  refine ⟨?_, ?_, ?_, ?_⟩
  · intro h
    have hc : (fk.mSuspendedWatchedFiles.isEmpty && !fk.mFSWatcherFiles.isEmpty) = false := by
      cases hs : fk.mSuspendedWatchedFiles with
      | nil => exact absurd hs h
      | cons a t => rfl
    rw [FolderKeeper.suspendWatchingResources, hc, if_neg Bool.false_ne_true]
  · intro h
    cases hw : fk.mFSWatcherFiles with
    | nil =>
      have hc : (fk.mSuspendedWatchedFiles.isEmpty && !fk.mFSWatcherFiles.isEmpty) =
          false := by
        rw [h, hw]
        rfl
      rw [FolderKeeper.suspendWatchingResources, hc, if_neg Bool.false_ne_true]
      exact ⟨h, hw⟩
    | cons a t =>
      have hc : (fk.mSuspendedWatchedFiles.isEmpty && !fk.mFSWatcherFiles.isEmpty) =
          true := by
        rw [h, hw]
        rfl
      rw [FolderKeeper.suspendWatchingResources, hc, if_pos rfl]
      constructor
      · show fk.mSuspendedWatchedFiles ++ fk.mFSWatcherFiles = a :: t
        rw [h, List.nil_append]
        exact hw
      · show fk.mFSWatcherFiles.filter
          (fun q => ¬ q ∈ fk.mSuspendedWatchedFiles ++ fk.mFSWatcherFiles) = []
        rw [List.filter_eq_nil]
        intro a ha
        simp only [decide_eq_true_eq, Decidable.not_not]
        exact List.mem_append_right _ ha
  · intro h
    have hc : (!fk.mSuspendedWatchedFiles.isEmpty) = false := by
      rw [h]
      rfl
    rw [FolderKeeper.resumeWatchingResources, hc, if_neg Bool.false_ne_true]
  · intro h
    have hc : (!fk.mSuspendedWatchedFiles.isEmpty) = true := by
      cases hs : fk.mSuspendedWatchedFiles with
      | nil => exact absurd hs h
      | cons a t => rfl
    rw [FolderKeeper.resumeWatchingResources, hc, if_pos rfl]
    refine ⟨rfl, ?_, ?_⟩
    · intro q hq hd
      exact mem_foldl_addPath_added _ _ _ _ hq hd
    · intro q hq
      exact mem_foldl_addPath_elim _ _ _ _ hq

theorem claim_C9_witness :
    wWatchFk.mSuspendedWatchedFiles ≠ [] ∧
    (wWatchFk.resumeWatchingResources []).mSuspendedWatchedFiles = [] ∧
    wWatchFk.suspendWatchingResources = wWatchFk :=
  ⟨by decide, ((claim_C9 wWatchFk []).2.2.2 (by decide)).1,
    (claim_C9 wWatchFk []).1 (by decide)⟩

/-- C10 (frame property of removeResource): removing a registered
resource r leaves every other registered resource untouched in both
indices — its identifier stays registered, still dereferences to the
same object, and its book-path entry survives — and membership of the
watch set is unchanged for every path other than r's full path;
likewise identifier membership for every identifier other than r's and
path entries for every key other than r's book path. -/
theorem claim_C10 (fk : FolderKeeper) (i j : Nat) (rd sd : ResData)
    (hInv : Inv fk) (hri : fk.resOf i = some rd) (hrj : fk.resOf j = some sd)
    (hi : i ∈ fk.mResources) (hj : j ∈ fk.mResources) (hij : j ≠ i) :
    (j ∈ (fk.removeResource rd).mResources ∧
     (fk.removeResource rd).resOf j = some sd ∧
     (relPathOf fk.mFullPathToMainFolder sd.fullPath, some j) ∈
       (fk.removeResource rd).mPath2Resource) ∧
    (∀ k, k ≠ i → (k ∈ (fk.removeResource rd).mResources ↔ k ∈ fk.mResources)) ∧
    (∀ q : Path × Option Nat, q.1 ≠ relPathOf fk.mFullPathToMainFolder rd.fullPath →
      (q ∈ (fk.removeResource rd).mPath2Resource ↔ q ∈ fk.mPath2Resource)) ∧
    (∀ w, w ≠ rd.fullPath →
      (w ∈ (fk.removeResource rd).mFSWatcherFiles ↔ w ∈ fk.mFSWatcherFiles)) := by
  have hridi : rd.rid = i := resOf_rid fk i rd hri
  have hentr := hInv.fwd i hi rd hri
  have hents := hInv.fwd j hj sd hrj
  have hkeyne : relPathOf fk.mFullPathToMainFolder sd.fullPath ≠
      relPathOf fk.mFullPathToMainFolder rd.fullPath := by
    intro hkey
    have hent3 : (relPathOf fk.mFullPathToMainFolder rd.fullPath, some j) ∈
        fk.mPath2Resource := by
      rw [← hkey]
      exact hents
    have := eq_value_of_nodup fk.mPath2Resource hInv.keys_nodup _ _ _ hent3 hentr
    rw [Option.some.injEq] at this
    exact hij this
  refine ⟨⟨?_, hrj, ?_⟩, ?_, ?_, ?_⟩
  · show j ∈ fk.mResources.erase rd.rid
    rw [hridi]
    exact (List.mem_erase_of_ne hij).mpr hj
  · exact mem_eraseA_of_ne _ _ _ hents hkeyne
  · intro k hk
    show k ∈ fk.mResources.erase rd.rid ↔ k ∈ fk.mResources
    rw [hridi]
    exact List.mem_erase_of_ne hk
  · intro q hq
    constructor
    · intro hm
      exact mem_of_mem_eraseA _ _ _ hm
    · intro hm
      exact mem_eraseA_of_ne _ _ _ hm hq
  · intro w hw
    show w ∈ fk.mFSWatcherFiles.erase rd.fullPath ↔ w ∈ fk.mFSWatcherFiles
    exact List.mem_erase_of_ne hw

theorem claim_C10_witness :
    (0 : Nat) ∈ (wAddFk2.removeResource wAddRd).mResources ∧
    (wAddFk2.removeResource wAddRd).resOf 0 = some (opfResData cMain) ∧
    (relPathOf cMain (opfResData cMain).fullPath, some 0) ∈
      (wAddFk2.removeResource wAddRd).mPath2Resource :=
  (claim_C10 wAddFk2 1 0 wAddRd (opfResData cMain)
    (inv_step_add mtbl0 (initialFolderKeeper cMain) [wAddP] wAddP [] (inv_initial cMain)
      (by decide))
    (by decide) (by decide) (by decide) (by decide) (by decide)).1

end Sigil
